import Mathlib

/-!
Shallow embedding of the phishing-detection prediction pipeline
(`src/utils/text_preprocessor.py`, `src/utils/validators.py`,
`src/models/url_classifier.py`, `src/services/prediction_service.py`,
`src/api/routes.py`).

Text is modelled as `List Char`.  Python regular-expression substitutions
are modelled by a left-to-right scanner (`scanSub`) that, at each position,
asks a matcher whether the regex matches there; a matcher consumes the
exact characters the (backtracking) engine would consume and supplies the
replacement.  The character classes (`\s`, `\d`, `\w`, `str.lower`,
`string.punctuation`) are modelled over their ASCII fragments, which is
exact for ASCII text.  Python floats are modelled by rationals.
-/

/-- ASCII whitespace recognised by Python's `\s` and `str.split`/`str.strip`. -/
def isSpaceChar (c : Char) : Bool :=
  c == ' ' || c == '\t' || c == '\n' || c == '\r' || c == '\x0b' || c == '\x0c'

/-- Python `\d` (ASCII fragment). -/
def isDigitChar (c : Char) : Bool :=
  '0' ≤ c && c ≤ '9'

/-- Python `\w` (ASCII fragment): letters, digits, underscore. -/
def wordChar (c : Char) : Bool :=
  ('a' ≤ c && c ≤ 'z') || ('A' ≤ c && c ≤ 'Z') || isDigitChar c || c == '_'

/-- ASCII lowercasing, the fragment of Python `str.lower` used by the code. -/
def lowerChar (c : Char) : Char :=
  if 65 ≤ c.toNat ∧ c.toNat ≤ 90 then Char.ofNat (c.toNat + 32) else c

/-- `str.lower` on a text. -/
def lowerL (l : List Char) : List Char := l.map lowerChar

/-- Python `str.strip()`: drop leading and trailing whitespace. -/
def stripL (l : List Char) : List Char :=
  ((l.dropWhile isSpaceChar).reverse.dropWhile isSpaceChar).reverse

/-- `string.punctuation` (32 ASCII characters). -/
def punctuation : List Char :=
  ['!', '\x22', '#', '$', '%', '&', '\x27', '(', ')', '*', '+', ',', '-', '.',
   '/', ':', ';', '<', '=', '>', '?', '@', '[', '\\', ']', '^', '_', '\x60',
   '\x7b', '|', '\x7d', '~']

/-- `text.translate(str.maketrans('', '', string.punctuation))`. -/
def removePunct (l : List Char) : List Char :=
  l.filter (fun c => !(punctuation.contains c))

/--
Left-to-right non-overlapping substitution, the semantics of `re.sub`,
written with structural fuel (`scanSub` below supplies sufficient fuel).
The matcher receives the character preceding the current position (for
word-boundary assertions) and the remaining text; on a match it returns
`(n, rep)` meaning the regex consumed `n + 1` characters, replaced by `rep`.
Scanning resumes after the consumed characters, as `re.sub` does.
-/
def scanSubAux (m : Option Char → List Char → Option (Nat × List Char)) :
    Nat → Option Char → List Char → List Char
  | 0, _, l => l
  | _ + 1, _, [] => []
  | f + 1, prev, c :: cs =>
    match m prev (c :: cs) with
    | some (n, rep) => rep ++ scanSubAux m f (((c :: cs).take (n + 1)).getLast?) (cs.drop n)
    | none => c :: scanSubAux m f (some c) cs

/-- `re.sub` over the whole text: fuel `l.length` always suffices because a
    match consumes at least one character. -/
def scanSub (m : Option Char → List Char → Option (Nat × List Char))
    (prev : Option Char) (l : List Char) : List Char :=
  scanSubAux m l.length prev l

theorem scanSubAux_sufficient
    (m : Option Char → List Char → Option (Nat × List Char)) :
    ∀ f (l : List Char) (p : Option Char), l.length ≤ f →
      scanSubAux m f p l = scanSub m p l := by
  intro f
  induction f using Nat.strong_induction_on with
  | _ f ih =>
    intro l p hl
    match f, l with
    | 0, l =>
      interval_cases hl' : l.length
      · cases l with
        | nil => rfl
        | cons c cs => simp at hl'
    | g + 1, [] => rfl
    | g + 1, c :: cs =>
      have hcs : cs.length ≤ g := by simpa using hl
      show scanSubAux m (g + 1) p (c :: cs) = scanSubAux m (cs.length + 1) p (c :: cs)
      cases hm : m p (c :: cs) with
      | none =>
        simp only [scanSubAux, hm]
        rw [ih g (by omega) cs (some c) hcs, ih cs.length (by omega) cs (some c) (by omega)]
      | some nr =>
        obtain ⟨n, rep⟩ := nr
        have hrest : (cs.drop n).length ≤ cs.length := by
          simp [List.length_drop]
        simp only [scanSubAux, hm]
        rw [ih g (by omega) (cs.drop n) _ (by omega),
          ih cs.length (by omega) (cs.drop n) _ (by omega)]

theorem scanSub_nil (m : Option Char → List Char → Option (Nat × List Char))
    (p : Option Char) : scanSub m p [] = [] := rfl

theorem scanSub_cons_some
    (m : Option Char → List Char → Option (Nat × List Char))
    (p : Option Char) (c : Char) (cs : List Char) (n : Nat) (rep : List Char)
    (h : m p (c :: cs) = some (n, rep)) :
    scanSub m p (c :: cs) =
      rep ++ scanSub m (((c :: cs).take (n + 1)).getLast?) (cs.drop n) := by
  show scanSubAux m (cs.length + 1) p (c :: cs) = _
  simp only [scanSubAux, h]
  rw [scanSubAux_sufficient m cs.length (cs.drop n) _ (by simp [List.length_drop])]

theorem scanSub_cons_none
    (m : Option Char → List Char → Option (Nat × List Char))
    (p : Option Char) (c : Char) (cs : List Char)
    (h : m p (c :: cs) = none) :
    scanSub m p (c :: cs) = c :: scanSub m (some c) cs := by
  show scanSubAux m (cs.length + 1) p (c :: cs) = _
  simp only [scanSubAux, h]
  rw [scanSubAux_sufficient m cs.length cs (some c) le_rfl]

/-- `['h','t','t','p']`, the literal part of `http\S+`. -/
def httpPat : List Char := ['h', 't', 't', 'p']

/-- `['w','w','w']`, the literal part of `www\S+`. -/
def wwwPat : List Char := ['w', 'w', 'w']

/-- Whether `pat` is an initial segment of `l`. -/
def startsWithL : List Char → List Char → Bool
  | [], _ => true
  | _ :: _, [] => false
  | p :: ps, c :: cs => (p == c) && startsWithL ps cs

/-- The character at index `i` exists and is not whitespace. -/
def nonspaceAt (l : List Char) (i : Nat) : Bool :=
  match l[i]? with
  | some c => !isSpaceChar c
  | none => false

/-- The maximal run of non-whitespace characters at the head of `l`
    (what a leading `\S+` consumes). -/
def nonspaceRun (l : List Char) : List Char :=
  l.takeWhile (fun c => !isSpaceChar c)

/-- `http\S+|www\S+|https\S+` matches at the head of `l`.  (The `https\S+`
    alternative is subsumed by `http\S+`, which the engine tries first.) -/
def linkStart (l : List Char) : Bool :=
  (startsWithL httpPat l && nonspaceAt l 4) || (startsWithL wwwPat l && nonspaceAt l 3)

/-- Matcher for `re.sub(r'http\S+|www\S+|https\S+', '', text)`: a match
    consumes the whole maximal non-whitespace run. -/
def linkMatcher (_ : Option Char) (l : List Char) : Option (Nat × List Char) :=
  if linkStart l then some ((nonspaceRun l).length - 1, []) else none

def subLinks (l : List Char) : List Char := scanSub linkMatcher none l

/-- `\S+@\S+` matches at the head of `run` (a maximal non-whitespace run)
    iff `run` has an `'@'` that is neither its first nor its last character. -/
def emailRunHasAt (run : List Char) : Bool :=
  (run.tail.dropLast).contains '@'

/-- Matcher for `re.sub(r'\S+@\S+', '', text)`: on a match the greedy
    trailing `\S+` consumes to the end of the non-whitespace run. -/
def emailMatcher (_ : Option Char) (l : List Char) : Option (Nat × List Char) :=
  if emailRunHasAt (nonspaceRun l) then some ((nonspaceRun l).length - 1, []) else none

def subEmailAddrs (l : List Char) : List Char := scanSub emailMatcher none l

/-- Consume exactly `n` digits, returning the rest. -/
def takeDigitsN : Nat → List Char → Option (List Char)
  | 0, l => some l
  | _ + 1, [] => none
  | n + 1, c :: cs => if isDigitChar c then takeDigitsN n cs else none

/-- `[-.]?`: consume an optional dash or dot separator. -/
def optSep (l : List Char) : Nat × List Char :=
  match l with
  | c :: cs => if c == '-' || c == '.' then (1, cs) else (0, l)
  | [] => (0, [])

/-- Trailing `\b` after a digit: next character absent or not a word character. -/
def boundaryAfter (l : List Char) : Bool :=
  match l with
  | [] => true
  | c :: _ => !wordChar c

/-- Matcher for `re.sub(r'\b\d{3}[-.]?\d{3}[-.]?\d{4}\b', '', text)`.
    The exact counts make the engine's backtracking deterministic: a
    separator is consumed iff present. -/
def phoneMatcher (prev : Option Char) (l : List Char) : Option (Nat × List Char) :=
  let okBefore := match prev with
    | none => true
    | some c => !wordChar c
  if !okBefore then none
  else
    match takeDigitsN 3 l with
    | none => none
    | some l1 =>
      let s1 := optSep l1
      match takeDigitsN 3 s1.2 with
      | none => none
      | some l3 =>
        let s2 := optSep l3
        match takeDigitsN 4 s2.2 with
        | none => none
        | some l5 =>
          if boundaryAfter l5 then some (10 + s1.1 + s2.1 - 1, []) else none

def subPhones (l : List Char) : List Char := scanSub phoneMatcher none l

/-- Matcher for `re.sub(r'<[^>]+>', '', text)` : a `'<'`, then at least one
    non-`'>'` character, then the first following `'>'`. -/
def htmlMatcher (_ : Option Char) (l : List Char) : Option (Nat × List Char) :=
  match l with
  | '<' :: rest =>
    let mid := rest.takeWhile (fun c => c != '>')
    if mid.length = 0 then none
    else if mid.length < rest.length then some (mid.length + 1, []) else none
  | _ => none

def subHtmlTags (l : List Char) : List Char := scanSub htmlMatcher none l

/-- Matcher for `re.sub(r'\s+', ' ', text)`: a whitespace run collapses to
    a single space. -/
def wsMatcher (_ : Option Char) (l : List Char) : Option (Nat × List Char) :=
  match l with
  | c :: _ => if isSpaceChar c then some ((l.takeWhile isSpaceChar).length - 1, [' ']) else none
  | [] => none

def collapseWs (l : List Char) : List Char := scanSub wsMatcher none l

/-- Matcher for `re.sub(r'\d+', '', text)`: a digit run is deleted. -/
def digitMatcher (_ : Option Char) (l : List Char) : Option (Nat × List Char) :=
  match l with
  | c :: _ => if isDigitChar c then some ((l.takeWhile isDigitChar).length - 1, []) else none
  | [] => none

def subDigits (l : List Char) : List Char := scanSub digitMatcher none l

/--
`TextPreprocessor.preprocess_email` (src/utils/text_preprocessor.py):
remove hyperlinks, e-mail addresses, phone numbers and HTML tags, collapse
whitespace, lowercase, remove punctuation and digit runs, and strip.
Empty input returns the empty text (the `if not text` guard).
-/
def preprocess_email (text : List Char) : List Char :=
  if text = [] then []
  else stripL (subDigits (removePunct (lowerL (collapseWs
    (subHtmlTags (subPhones (subEmailAddrs (subLinks text))))))))

example : preprocess_email "Hello, World!".data = "hello world".data := by decide
example : preprocess_email "Call 555-123-4567 now".data = "call now".data := by decide
example : preprocess_email "Visit http://x.com please".data = "visit please".data := by decide
example : preprocess_email "Contact a@b.com now".data = "contact now".data := by decide
example : preprocess_email "<b>hi</b> there".data = "hi there".data := by decide
example : preprocess_email "WwwX".data = "wwwx".data := by decide
example : preprocess_email "wwwx".data = "".data := by decide

/-! ## URL parsing (`urllib.parse.urlsplit`, the fragment feeding `netloc`) -/

/-- Bytes removed from URLs by `urllib.parse` (`_UNSAFE_URL_BYTES_TO_REMOVE`). -/
def unsafeUrlByte (c : Char) : Bool := c == '\t' || c == '\r' || c == '\n'

/-- WHATWG C0-control-or-space class stripped from URL ends by `urlsplit`. -/
def c0ControlOrSpace (c : Char) : Bool := c.toNat ≤ 32

/-- The WHATWG sanitisation `urlsplit` applies before parsing: strip leading
    and trailing C0 controls and spaces, remove tab, CR and LF. -/
def sanitizeUrl (l : List Char) : List Char :=
  (((l.dropWhile c0ControlOrSpace).reverse.dropWhile c0ControlOrSpace).reverse).filter
    (fun c => !unsafeUrlByte c)

/-- ASCII letter. -/
def asciiAlpha (c : Char) : Bool := ('a' ≤ c && c ≤ 'z') || ('A' ≤ c && c ≤ 'Z')

/-- `urllib.parse.scheme_chars`: letters, digits, `+`, `-`, `.`. -/
def schemeChar (c : Char) : Bool :=
  asciiAlpha c || isDigitChar c || c == '+' || c == '-' || c == '.'

/-- First character of `u` is an ASCII letter. -/
def headAlpha (u : List Char) : Bool :=
  match u with
  | c :: _ => asciiAlpha c
  | [] => false

/-- `urlsplit` scheme recognition: if a `':'` occurs at index `i > 0` and
    `u[:i]` is a letter followed by scheme characters, the scheme (and the
    colon) are removed; otherwise the text is unchanged. -/
def splitSchemeRest (u : List Char) : List Char :=
  match u.findIdx? (fun c => c == ':') with
  | some i => if 0 < i ∧ headAlpha u ∧ (u.take i).all schemeChar then u.drop (i + 1) else u
  | none => u

/-- Characters terminating the netloc in `_splitnetloc`. -/
def netlocEnd (c : Char) : Bool := c == '/' || c == '?' || c == '#'

/--
The `netloc` produced by `urllib.parse.urlparse` (empty unless the text
after the optional scheme begins with `//`), or `none` when `urlsplit`
raises `ValueError`.  Bracketed-host validation is modelled conservatively:
any netloc containing `[` or `]` is sent to the error path (the claims and
witnesses below never use bracketed hosts).
-/
def netlocOf (url : List Char) : Option (List Char) :=
  let rest := splitSchemeRest (sanitizeUrl url)
  if startsWithL ['/', '/'] rest then
    let nl := (rest.drop 2).takeWhile (fun c => !netlocEnd c)
    if nl.contains '[' || nl.contains ']' then none else some nl
  else some []

/-! ## `URLClassifier` heuristics (src/models/url_classifier.py) -/

/-- Word boundary holds before the current position: previous character
    absent or not a word character (the first matched character is a digit,
    hence a word character). -/
def okBoundaryBefore (prev : Option Char) : Bool :=
  match prev with
  | none => true
  | some c => !wordChar c

/-- Possible rests after `[0-9]{1,3}` consumes 1, 2 or 3 digits of `l`. -/
def ipGroupRests (l : List Char) : List (List Char) :=
  (List.range 3).filterMap (fun k => takeDigitsN (k + 1) l)

/-- Consume a literal `'.'`. -/
def expectDot : List Char → Option (List Char)
  | '.' :: r => some r
  | _ => none

/-- `(?:[0-9]{1,3}\.){3}[0-9]{1,3}\b` matches at the head of `l` for some
    choice of group widths (backtracking search). -/
def ipTailAt (l : List Char) : Bool :=
  (ipGroupRests l).any fun r1 => (expectDot r1).elim false fun r1' =>
    (ipGroupRests r1').any fun r2 => (expectDot r2).elim false fun r2' =>
      (ipGroupRests r2').any fun r3 => (expectDot r3).elim false fun r3' =>
        (ipGroupRests r3').any fun r4 => boundaryAfter r4

/-- `re.search(r'\b(?:[0-9]{1,3}\.){3}[0-9]{1,3}\b', url)` succeeds:
    try each starting position, threading the previous character for `\b`. -/
def ipSearchAux : Option Char → List Char → Bool
  | _, [] => false
  | prev, c :: cs => (okBoundaryBefore prev && ipTailAt (c :: cs)) || ipSearchAux (some c) cs

def ipSearch (l : List Char) : Bool := ipSearchAux none l

/-- `URLClassifier._has_ip_address`. -/
def has_ip_address (url : List Char) : Int :=
  if ipSearch url then 1 else -1

/-- `URLClassifier._get_url_length_category`. -/
def get_url_length_category (length : Nat) : Int :=
  if length < 54 then -1 else if length ≤ 75 then 0 else 1

/-- The shortening-service substrings. -/
def shortening_services : List (List Char) :=
  ["bit.ly".data, "tinyurl.com".data, "goo.gl".data, "t.co".data,
   "short.link".data, "ow.ly".data, "is.gd".data]

/-- Python `pat in l` (substring containment). -/
def containsSub (pat : List Char) : List Char → Bool
  | [] => startsWithL pat []
  | c :: cs => startsWithL pat (c :: cs) || containsSub pat cs

/-- `URLClassifier._has_shortening_service`. -/
def has_shortening_service (url : List Char) : Int :=
  if shortening_services.any (fun s => containsSub s (lowerL url)) then 1 else -1

/-- Python `url.count('//')` (non-overlapping occurrences). -/
def countDoubleSlash : List Char → Nat
  | '/' :: '/' :: rest => countDoubleSlash rest + 1
  | _ :: rest => countDoubleSlash rest
  | [] => 0

/-- `URLClassifier._has_double_slash_redirect`. -/
def has_double_slash_redirect (url : List Char) : Int :=
  if 1 < countDoubleSlash url then 1 else -1

/-- `URLClassifier._has_prefix_suffix`: dash in the domain. -/
def has_prefix_suffix (domain : List Char) : Int :=
  if domain.contains '-' then 1 else -1

/-- `URLClassifier._count_subdomains`: bucketed dot count of the domain. -/
def count_subdomains (domain : List Char) : Int :=
  if domain = [] then -1
  else
    let n := domain.count '.'
    if n ≤ 1 then -1 else if n = 2 then 0 else 1

/--
`URLClassifier.extract_features`: the seven heuristics over the raw URL and
its parsed netloc, then `expected_features - len(features)` zeros appended —
`range` of a negative number is empty, so natural subtraction models the
padding loop exactly.  Returns `none` when `urlparse` raises (the method
re-raises the exception).
-/
def extract_features (expected_features : Nat) (url : List Char) : Option (List Int) :=
  match netlocOf url with
  | none => none
  | some netloc =>
    let features : List Int :=
      [has_ip_address url,
       get_url_length_category url.length,
       has_shortening_service url,
       if url.contains '@' then 1 else -1,
       has_double_slash_redirect url,
       has_prefix_suffix netloc,
       count_subdomains netloc]
    some (features ++ List.replicate (expected_features - 7) 0)

/-- `TextPreprocessor.preprocess_url`: strip, prefix `http://` when no
    `http://`/`https://` prefix is present, lowercase. -/
def preprocess_url (url : List Char) : List Char :=
  if url = [] then []
  else
    let u := stripL url
    let u2 :=
      if startsWithL "http://".data u || startsWithL "https://".data u then u
      else "http://".data ++ u
    lowerL u2

example : netlocOf "http://192.168.0.1/login".data = some "192.168.0.1".data := by decide
example : netlocOf "ftp://a-b.c.d.e/x".data = some "a-b.c.d.e".data := by decide
example : netlocOf "example-site.co.uk/path".data = some [] := by decide
example : extract_features 30 "http://192.168.0.1/login".data =
    some ([1, -1, -1, -1, -1, -1, 1] ++ List.replicate 23 0) := by decide
example : extract_features 3 "http://x.com".data =
    some [-1, -1, -1, -1, -1, -1, -1] := by decide
example : ipSearch "evil.com".data = false := by decide
example : has_ip_address "http://evil.com/192.168.0.1".data = 1 := by decide

/-! ## `InputValidator` (src/utils/validators.py) -/

/-- The `{'is_valid': ..., 'error': ...}` result dictionaries. -/
structure VRes where
  is_valid : Bool
  error : Option String
deriving DecidableEq

/-- A request dictionary: `text` / `type` keys, each possibly absent. -/
structure ReqItem where
  text : Option (List Char)
  rtype : Option String
deriving DecidableEq

/-- `len(text.split())`: number of whitespace-separated words. -/
def countWordsAux : Bool → List Char → Nat
  | _, [] => 0
  | inWord, c :: cs =>
    if isSpaceChar c then countWordsAux false cs
    else (if inWord then 0 else 1) + countWordsAux true cs

def countWords (l : List Char) : Nat := countWordsAux false l

def scriptOpen : List Char := "<script".data

def scriptClose : List Char := "</script>".data

/-- `re.search(r'<script[^>]*>.*?</script>', low, IGNORECASE|DOTALL)` on the
    lowercased text: a `<script` occurrence, the first following `>`, and a
    `</script>` occurrence after it. -/
def hasScriptTagL : List Char → Bool
  | [] => false
  | c :: cs =>
    (startsWithL scriptOpen (c :: cs) &&
      (let rest := (c :: cs).drop 7
       match rest.findIdx? (fun ch => ch == '>') with
       | some m => containsSub scriptClose (rest.drop (m + 1))
       | none => false)) || hasScriptTagL cs

/-- `InputValidator._validate_email_content`. -/
def validate_email_content (t : List Char) : VRes :=
  if countWords t < 2 then ⟨false, some "Email content must contain at least 2 words"⟩
  else
    let low := lowerL t
    if hasScriptTagL low || containsSub "javascript:".data low ||
        containsSub "data:text/html".data low then
      ⟨false, some "Email content contains potentially malicious patterns"⟩
    else ⟨true, none⟩

/-- Lowercase ASCII letter (the `[A-Z]` classes under `re.IGNORECASE`,
    after lowercasing the text). -/
def letterL (c : Char) : Bool := 'a' ≤ c && c ≤ 'z'

def alnumL (c : Char) : Bool := letterL c || isDigitChar c

def labelBody (c : Char) : Bool := alnumL c || c == '-'

def headAlnum (tok : List Char) : Bool :=
  match tok with
  | c :: _ => alnumL c
  | [] => false

def lastAlnum (tok : List Char) : Bool :=
  match tok.getLast? with
  | some c => alnumL c
  | none => false

/-- Rests after `[A-Z0-9](?:[A-Z0-9-]{0,61}[A-Z0-9])?\.` consumes one
    domain label (length 1..63, no leading/trailing dash) and its dot. -/
def labelRests (l : List Char) : List (List Char) :=
  (List.range 63).filterMap fun k =>
    let n := k + 1
    let tok := l.take n
    if tok.length = n && headAlnum tok && lastAlnum tok && tok.all labelBody &&
        (match l[n]? with
         | some c => c == '.'
         | none => false) then
      some (l.drop (n + 1))
    else none

/-- Rests after one or more labels (`(?:...\.)+`); fuel bounds recursion
    (each label consumes at least two characters). -/
def labelsRests : Nat → List Char → List (List Char)
  | 0, _ => []
  | fuel + 1, l => (labelRests l).flatMap fun r => r :: labelsRests fuel r

/-- Rests after the `[A-Z]{2,6}\.?` top-level-domain part. -/
def tldRests (r : List Char) : List (List Char) :=
  (List.range 5).flatMap fun k =>
    let n := k + 2
    let tok := r.take n
    if tok.length = n && tok.all letterL then
      match r.drop n with
      | '.' :: r2 => [r.drop n, r2]
      | _ => [r.drop n]
    else []

/-- Rests after `\d{1,3}\.\d{1,3}\.\d{1,3}\.\d{1,3}` (all group widths). -/
def ipQuadRests (l : List Char) : List (List Char) :=
  (ipGroupRests l).flatMap fun r1 => (expectDot r1).elim [] fun r1' =>
    (ipGroupRests r1').flatMap fun r2 => (expectDot r2).elim [] fun r2' =>
      (ipGroupRests r2').flatMap fun r3 => (expectDot r3).elim [] fun r3' =>
        ipGroupRests r3'

/-- Rests after the host alternation: labelled domain, `localhost`, or IP. -/
def hostRests (l : List Char) : List (List Char) :=
  (labelsRests l.length l).flatMap tldRests ++
    (if startsWithL "localhost".data l then [l.drop 9] else []) ++
    ipQuadRests l

/-- Rests after consuming one or more leading digits. -/
def digitSplits : List Char → List (List Char)
  | [] => []
  | c :: cs => if isDigitChar c then cs :: digitSplits cs else []

/-- Rests after the optional `(?::\d+)?` port. -/
def portRests (r : List Char) : List (List Char) :=
  r :: (match r with
    | ':' :: r' => digitSplits r'
    | _ => [])

/-- `$` (no MULTILINE): end of text, or just before a final newline. -/
def endDollar (l : List Char) : Bool := l == [] || l == ['\n']

/-- `\S+$`: at least one non-whitespace character, then the end anchor. -/
def nonspaceThenEnd (l : List Char) : Bool :=
  (!(l == []) && l.all fun c => !isSpaceChar c) ||
    (l.getLast? == some '\n' && !(l.dropLast == []) &&
      l.dropLast.all fun c => !isSpaceChar c)

/-- The trailing `(?:/?|[/?]\S+)$` part. -/
def tailOk (r : List Char) : Bool :=
  endDollar r ||
    (match r with
     | '/' :: r' => endDollar r'
     | _ => false) ||
    (match r with
     | c :: c2 :: rest => (c == '/' || c == '?') && nonspaceThenEnd (c2 :: rest)
     | _ => false)

/-- `(?:http|ftp)s?://`: the four concrete scheme prefixes. -/
def urlSchemeRest (l : List Char) : Option (List Char) :=
  if startsWithL "https://".data l then some (l.drop 8)
  else if startsWithL "http://".data l then some (l.drop 7)
  else if startsWithL "ftps://".data l then some (l.drop 7)
  else if startsWithL "ftp://".data l then some (l.drop 6)
  else none

/-- `url_pattern.match(test_url)` of `_validate_url_content` succeeds
    (`re.IGNORECASE` modelled by lowercasing the text first). -/
def urlRegexMatch (turl : List Char) : Bool :=
  let low := lowerL turl
  match urlSchemeRest low with
  | none => false
  | some rest => (hostRests rest).any fun hr => (portRests hr).any tailOk

/-- `InputValidator._validate_url_content`. -/
def validate_url_content (t : List Char) : VRes :=
  let test_url :=
    if startsWithL "http://".data t || startsWithL "https://".data t then t
    else "http://".data ++ t
  let formatOk :=
    if urlRegexMatch test_url then true
    else
      match netlocOf test_url with
      | none => false
      | some [] => false
      | some (_ :: _) => true
  if !formatOk then ⟨false, some "Invalid URL format"⟩
  else if 2048 < t.length then ⟨false, some "URL is too long (max 2048 characters)"⟩
  else ⟨true, none⟩

/-- `InputValidator._validate_text_content`. -/
def validate_text_content (text : List Char) (ctype : String) : VRes :=
  if text = [] then ⟨false, some "Text content must be a non-empty string"⟩
  else
    let t := stripL text
    if t = [] then ⟨false, some "Text content cannot be empty"⟩
    else if 10000 < t.length then
      ⟨false, some "Text content is too long (max 10,000 characters)"⟩
    else if t.length < 3 then
      ⟨false, some "Text content is too short (min 3 characters)"⟩
    else if ctype = "email" then validate_email_content t
    else if ctype = "url" then validate_url_content t
    else ⟨true, none⟩

/-- `InputValidator.validate_prediction_input` (`none` models an absent or
    empty request dictionary). -/
def validate_prediction_input (data : Option ReqItem) : VRes :=
  match data with
  | none => ⟨false, some "Request data is required"⟩
  | some item =>
    match item.text with
    | none => ⟨false, some "Text field is required"⟩
    | some tx =>
      match item.rtype with
      | none => ⟨false, some "Type field is required"⟩
      | some ty =>
        if ty = "email" ∨ ty = "url" then validate_text_content tx ty
        else ⟨false, some "Type must be one of: email, url"⟩

example : validate_prediction_input (some ⟨some "abc".data, some "email"⟩) =
    ⟨false, some "Email content must contain at least 2 words"⟩ := by decide
example : validate_prediction_input (some ⟨some "hello there".data, some "email"⟩) =
    ⟨true, none⟩ := by decide
example : validate_prediction_input (some ⟨some "http://example.com/a".data, some "url"⟩) =
    ⟨true, none⟩ := by decide
example : validate_prediction_input (some ⟨some "x".data, some "bogus"⟩) =
    ⟨false, some "Type must be one of: email, url"⟩ := by decide

/-! ## `PredictionService` (src/services/prediction_service.py) -/

/-- The result dictionary of `_predict_email` / `_predict_url`
    (`processed_text` is present only on the email path). -/
structure PredOut where
  prediction : String
  confidence : ℚ
  risk_level : String
  content_type : String
  raw_prediction : Int
  processed_text : Option (List Char)
deriving DecidableEq

/-- The loaded classifiers, abstracted: each maps its model input to a
    `(raw label, confidence)` pair or raises. `expected_features` is the
    loaded URL model's `n_features_in_`. -/
structure ServiceModel where
  emailPredict : List Char → Except String (Int × ℚ)
  urlPredict : List Int → Except String (Int × ℚ)
  expected_features : Nat

/-- `PredictionService._calculate_risk_level`. -/
def calculate_risk_level (confidence : ℚ) (is_phishing : Bool) : String :=
  if !is_phishing then "Low"
  else if 8/10 ≤ confidence then "High"
  else if 6/10 ≤ confidence then "Medium"
  else "Low"

/-- `PredictionService._predict_email`: preprocess, classify, then the
    hard-coded `prediction_num == 1 → "Phishing"` mapping. -/
def predict_email (M : ServiceModel) (text : List Char) : Except String PredOut :=
  let processed := preprocess_email text
  match M.emailPredict processed with
  | .error e => .error e
  | .ok (n, conf) =>
    let prediction := if n = 1 then "Phishing" else "Safe"
    let risk := calculate_risk_level conf (prediction == "Phishing")
    .ok ⟨prediction, conf, risk, "email", n, some (processed.take 100)⟩

/-- `PredictionService._predict_url`: features from the raw URL (no
    `preprocess_url` call), classify, same hard-coded mapping. -/
def predict_url (M : ServiceModel) (url : List Char) : Except String PredOut :=
  match extract_features M.expected_features url with
  | none => .error "Error extracting URL features"
  | some features =>
    match M.urlPredict features with
    | .error e => .error e
    | .ok (n, conf) =>
      let prediction := if n = 1 then "Phishing" else "Safe"
      let risk := calculate_risk_level conf (prediction == "Phishing")
      .ok ⟨prediction, conf, risk, "url", n, none⟩

/-- `PredictionService.predict_text`: the `models_loaded` gate, then
    dispatch on the lowercased content type. -/
def predict_text (M : ServiceModel) (models_loaded : Bool) (text : List Char)
    (content_type : String) : Except String PredOut :=
  if !models_loaded then .error "Models not loaded"
  else if lowerL content_type.data = "email".data then predict_email M text
  else if lowerL content_type.data = "url".data then predict_url M text
  else .error ("Invalid content type: " ++ content_type)

/-- The `is_loaded` / `models_loaded` flags of the service and its two
    classifiers. -/
structure ServiceState where
  email_loaded : Bool
  url_loaded : Bool
  models_loaded : Bool
deriving DecidableEq

/-- State at construction: nothing loaded. -/
def initServiceState : ServiceState := ⟨false, false, false⟩

/-- `PredictionService.load_models`: each classifier's `load_model` either
    succeeds (setting its `is_loaded`) or raises; `models_loaded` is set
    only after both loads succeed, and any exception propagates leaving the
    flags as they were at that point. -/
def load_models (dirExists : Bool) (emailLoad urlLoad : Except String Unit)
    (st : ServiceState) : Except String Unit × ServiceState :=
  if !dirExists then
    (.error "Models directory not found: models/saved_models", st)
  else
    match emailLoad with
    | .error e => (.error e, st)
    | .ok _ =>
      let st1 := { st with email_loaded := true }
      match urlLoad with
      | .error e => (.error e, st1)
      | .ok _ => (.ok (), { st1 with url_loaded := true, models_loaded := true })

/-- `PredictionService.predict` (the Flask-facing alias of `predict_text`). -/
def service_predict (M : ServiceModel) (st : ServiceState) (text : List Char)
    (detection_type : String) : Except String PredOut :=
  predict_text M st.models_loaded text detection_type

/-- One entry of `PredictionService.predict_batch`. -/
inductive SBatchEntry where
  | ok (r : PredOut)
  | fail (error : String) (textSnippet : List Char)
deriving DecidableEq

/-- The body of the `predict_batch` loop for one item: any exception
    (including a missing `'text'`/`'type'` key) becomes a failure entry and
    the loop continues. -/
def service_batch_item (M : ServiceModel) (ml : Bool) (item : ReqItem) : SBatchEntry :=
  match item.text, item.rtype with
  | some tx, some ty =>
    match predict_text M ml tx ty with
    | .ok r => .ok r
    | .error e => .fail e (tx.take 50 ++ "...".data)
  | _, _ => .fail "KeyError" (((item.text).getD []).take 50 ++ "...".data)

/-- `PredictionService.predict_batch`. -/
def service_predict_batch (M : ServiceModel) (ml : Bool) (items : List ReqItem) :
    List SBatchEntry :=
  items.map (service_batch_item M ml)

/-! ## `api_batch_predict` (src/api/routes.py) -/

/-- One element of the route's `results` array. -/
inductive BatchEntry where
  | ok (index : Nat) (prediction : String) (confidence : ℚ) (risk_level : String)
      (detection_type : String)
  | fail (index : Nat) (error : String)
deriving DecidableEq

def BatchEntry.index : BatchEntry → Nat
  | .ok i _ _ _ _ => i
  | .fail i _ => i

def BatchEntry.success : BatchEntry → Bool
  | .ok _ _ _ _ _ => true
  | .fail _ _ => false

/-- Python `round(x, 4)` (round half to even), on the rational value. -/
def roundHalfEven (x : ℚ) : ℤ :=
  let f := ⌊x⌋
  let r := x - f
  if r < 1/2 then f
  else if 1/2 < r then f + 1
  else if f % 2 = 0 then f else f + 1

def round4 (q : ℚ) : ℚ := (roundHalfEven (q * 10000) : ℚ) / 10000

/--
The body of the route's per-item loop: validate, then predict; a
validation failure or an exception yields a failure entry carrying this
item's index (the dead branches after a successful validation mirror the
`except` path of the loop, which reports `'Processing error'`).
`P` is the injected `prediction_service.predict`.
-/
def process_batch_item (P : List Char → String → Except String PredOut) (i : Nat)
    (item : Option ReqItem) : BatchEntry :=
  let vr := validate_prediction_input item
  if !vr.is_valid then .fail i ((vr.error).getD "")
  else
    match item with
    | some it =>
      match it.text, it.rtype with
      | some tx, some ty =>
        match P tx ty with
        | .ok r => .ok i r.prediction (round4 r.confidence) r.risk_level ty
        | .error _ => .fail i "Processing error"
      | _, _ => .fail i "Processing error"
    | none => .fail i "Processing error"

/-- `api_batch_predict`: the whole-batch guards, then the per-item loop;
    returns the results with the metadata pair
    `(total_items, successful_predictions)`. -/
def api_batch_predict (P : List Char → String → Except String PredOut)
    (data : Option (List (Option ReqItem))) :
    Except String (List BatchEntry × Nat × Nat) :=
  match data with
  | none => .error "Items array is required for batch prediction"
  | some items =>
    if items.length = 0 then .error "Items must be a non-empty array"
    else if 50 < items.length then .error "Batch size cannot exceed 50 items"
    else
      let results := items.enum.map fun p => process_batch_item P p.1 p.2
      .ok (results, items.length, (results.filter BatchEntry.success).length)

/-! ## Claim theorems -/

/--
C4: `_calculate_risk_level` is a pure total function and, for every
confidence in `[0,1]`: Safe maps to Low for every confidence; Phishing with
confidence ≥ 0.8 maps to High; Phishing with 0.6 ≤ confidence < 0.8 maps to
Medium; Phishing with confidence < 0.6 maps to Low.
-/
theorem c4_risk_level (conf : ℚ) (h0 : 0 ≤ conf) (h1 : conf ≤ 1) :
    calculate_risk_level conf false = "Low" ∧
    (8/10 ≤ conf → calculate_risk_level conf true = "High") ∧
    (6/10 ≤ conf → conf < 8/10 → calculate_risk_level conf true = "Medium") ∧
    (conf < 6/10 → calculate_risk_level conf true = "Low") := by
  refine ⟨rfl, ?_, ?_, ?_⟩
  · intro h
    simp [calculate_risk_level, h]
  · intro h hlt
    simp [calculate_risk_level, h, not_le.mpr hlt]
  · intro h
    have h8 : ¬ (8/10 : ℚ) ≤ conf := by linarith
    have h6 : ¬ (6/10 : ℚ) ≤ conf := by linarith
    simp [calculate_risk_level, h8, h6]

/-- Witness for C4 at confidence `0.85`. -/
theorem c4_risk_level_witness :
    (0 : ℚ) ≤ 85/100 ∧ (85/100 : ℚ) ≤ 1 ∧
      calculate_risk_level (85/100) true = "High" := by
  refine ⟨by norm_num, by norm_num, ?_⟩
  exact (c4_risk_level (85/100) (by norm_num) (by norm_num)).2.1 (by norm_num)

/--
C1 counterexample: with `expectedDimension = 3 < 7` the extractor does
*not* truncate — `range(3 - 7)` is empty, so all seven heuristics are kept
and the returned vector has length 7, not 3.
-/
theorem c1_counterexample :
    extract_features 3 "http://x.com".data = some [-1, -1, -1, -1, -1, -1, -1] ∧
    (extract_features 3 "http://x.com".data).map List.length = some 7 ∧
    ((extract_features 3 "http://x.com".data).map List.length ≠ some 3) := by
  refine ⟨by decide, by decide, by decide⟩

/--
C1 (amended): whenever `extract_features` returns (it raises only when URL
parsing raises), the vector has length `max 7 expectedDimension`: the seven
heuristics followed by `expectedDimension - 7` zeros when
`expectedDimension ≥ 7`, and the untruncated seven heuristics when
`expectedDimension < 7`.
-/
theorem c1_length_max (expected : Nat) (url : List Char) (fs : List Int)
    (h : extract_features expected url = some fs) :
    fs.length = max 7 expected := by
  cases hn : netlocOf url with
  | none => simp [extract_features, hn] at h
  | some nl =>
    simp only [extract_features, hn] at h
    injection h with h
    rw [← h]
    simp [List.length_append, List.length_replicate]
    omega

/-- Witness for C1 (amended) at `expectedDimension = 30`. -/
theorem c1_length_max_witness :
    extract_features 30 "http://x.com".data =
      some ([-1, -1, -1, -1, -1, -1, -1] ++ List.replicate 23 0) ∧
    ([-1, -1, -1, -1, -1, -1, -1] ++ List.replicate 23 (0 : Int)).length = max 7 30 :=
  ⟨by decide, c1_length_max 30 "http://x.com".data _ (by decide)⟩

/--
C6 counterexample: for `http://evil.com/192.168.0.1` the host `evil.com`
contains no IP literal, yet feature 1 is `1`, because `_has_ip_address`
scans the whole URL (the dotted quad sits in the path), not the host.
-/
theorem c6_counterexample :
    netlocOf "http://evil.com/192.168.0.1".data = some "evil.com".data ∧
    ipSearch "evil.com".data = false ∧
    (extract_features 30 "http://evil.com/192.168.0.1".data).bind (fun fs => fs[0]?) =
      some 1 := by
  refine ⟨by decide, by decide, by decide⟩

/--
C6 (amended): feature 1 equals `1` iff the regex
`\b(?:[0-9]{1,3}\.){3}[0-9]{1,3}\b` finds a match anywhere in the full URL
string (host or not), else `-1`; feature 2 is the length bucket of the URL.
-/
theorem c6_ip_feature (expected : Nat) (url : List Char) (fs : List Int)
    (h : extract_features expected url = some fs) :
    fs[0]? = some (if ipSearch url then 1 else -1) ∧
    fs[1]? = some (get_url_length_category url.length) := by
  cases hn : netlocOf url with
  | none => simp [extract_features, hn] at h
  | some nl =>
    simp only [extract_features, hn] at h
    injection h with h
    rw [← h]
    constructor <;> rfl

/-- Witness for C6 (amended) at the spec's example
    `http://192.168.0.1/login`: feature 1 is `1`, feature 2 is `-1`. -/
theorem c6_ip_feature_witness :
    (extract_features 30 "http://192.168.0.1/login".data).bind (fun fs => fs[0]?) =
      some 1 ∧
    (extract_features 30 "http://192.168.0.1/login".data).bind (fun fs => fs[1]?) =
      some (-1) := by
  have h := c6_ip_feature 30 "http://192.168.0.1/login".data
    ([1, -1, -1, -1, -1, -1, 1] ++ List.replicate 23 0) (by decide)
  have he : extract_features 30 "http://192.168.0.1/login".data =
      some ([1, -1, -1, -1, -1, -1, 1] ++ List.replicate 23 0) := by decide
  rw [he]
  refine ⟨?_, ?_⟩
  · rw [Option.bind, h.1]
    decide
  · rw [Option.bind, h.2]
    decide

/--
C9 counterexample: `ftp://a-b.c.d.e/x` does not start with `http://` or
`https://`, yet `urlparse` still extracts the host `a-b.c.d.e` (any
recognised scheme followed by `//` yields a netloc), so the hyphen feature
is `1` and the subdomain feature is `1`, not `-1`.
-/
theorem c9_counterexample :
    startsWithL "http://".data "ftp://a-b.c.d.e/x".data = false ∧
    startsWithL "https://".data "ftp://a-b.c.d.e/x".data = false ∧
    netlocOf "ftp://a-b.c.d.e/x".data = some "a-b.c.d.e".data ∧
    (extract_features 30 "ftp://a-b.c.d.e/x".data).bind (fun fs => fs[5]?) = some 1 ∧
    (extract_features 30 "ftp://a-b.c.d.e/x".data).bind (fun fs => fs[6]?) = some 1 := by
  refine ⟨by decide, by decide, by decide, by decide, by decide⟩

/--
C9 (amended): for every url whose parsed netloc is empty (after `urlsplit`
sanitisation and optional scheme removal the text does not continue with
`//`), the hyphen-in-host feature (index 5) and the subdomain feature
(index 6) are both `-1` regardless of the hyphens or dots in the text; and
the url branch of `predict_text` hands the raw input straight to
`_predict_url`, never prefixing a default scheme before feature extraction.
-/
theorem c9_empty_host (expected : Nat) (url : List Char) (fs : List Int)
    (hnl : netlocOf url = some [])
    (h : extract_features expected url = some fs) :
    fs[5]? = some (-1) ∧ fs[6]? = some (-1) ∧
    (∀ (M : ServiceModel), predict_text M true url "url" = predict_url M url) := by
  simp only [extract_features, hnl] at h
  injection h with h
  refine ⟨?_, ?_, ?_⟩
  · rw [← h]
    rfl
  · rw [← h]
    simp [List.getElem?_append, count_subdomains]
  · intro M
    rfl

/-- Witness for C9 (amended) at `example-site.co.uk/path` (no scheme, so
    the parsed host is empty although the text has a hyphen and dots). -/
theorem c9_empty_host_witness :
    netlocOf "example-site.co.uk/path".data = some [] ∧
    (extract_features 30 "example-site.co.uk/path".data).bind (fun fs => fs[5]?) =
      some (-1) ∧
    (extract_features 30 "example-site.co.uk/path".data).bind (fun fs => fs[6]?) =
      some (-1) := by
  have h := c9_empty_host 30 "example-site.co.uk/path".data
    ([-1, -1, -1, -1, -1, -1, -1] ++ List.replicate 23 0) (by decide) (by decide)
  have he : extract_features 30 "example-site.co.uk/path".data =
      some ([-1, -1, -1, -1, -1, -1, -1] ++ List.replicate 23 0) := by decide
  refine ⟨by decide, ?_, ?_⟩
  · rw [he, Option.bind, h.1]
  · rw [he, Option.bind, h.2.1]

/--
C7: a batch that is empty or has more than 50 items is rejected wholesale
with a batch-size error and no per-item results are produced; every batch
of 1..50 items is accepted and processed per item.
-/
theorem c7_batch_guards (P : List Char → String → Except String PredOut)
    (items : List (Option ReqItem)) :
    (items.length = 0 →
      api_batch_predict P (some items) = .error "Items must be a non-empty array") ∧
    (50 < items.length →
      api_batch_predict P (some items) = .error "Batch size cannot exceed 50 items") ∧
    (0 < items.length → items.length ≤ 50 →
      api_batch_predict P (some items) =
        .ok (items.enum.map fun p => process_batch_item P p.1 p.2, items.length,
          ((items.enum.map fun p => process_batch_item P p.1 p.2).filter
            BatchEntry.success).length)) := by
  refine ⟨?_, ?_, ?_⟩
  · intro h
    simp [api_batch_predict, h]
  · intro h
    have h0 : items.length ≠ 0 := by omega
    simp [api_batch_predict, h0, h]
  · intro h1 h2
    have h0 : items.length ≠ 0 := by omega
    have h50 : ¬ 50 < items.length := by omega
    simp [api_batch_predict, h0, h50]

/-- Witness for C7: a 51-item batch is rejected; a 1-item batch is
    processed (here the single invalid item yields its failure entry). -/
theorem c7_batch_guards_witness :
    api_batch_predict (fun _ _ => .error "e") (some (List.replicate 51 none)) =
      .error "Batch size cannot exceed 50 items" ∧
    api_batch_predict (fun _ _ => .error "e") (some [none]) =
      .ok ([.fail 0 "Request data is required"], 1, 0) := by
  constructor
  · exact (c7_batch_guards (fun _ _ => .error "e") (List.replicate 51 none)).2.1
      (by simp)
  · have h := (c7_batch_guards (fun _ _ => .error "e") [none]).2.2
      (by norm_num) (by norm_num)
    rw [h]
    rfl

/--
C8: every predict call made while `models_loaded` is false fails with the
model-not-loaded error; `load_models` sets `models_loaded` exactly when the
directory exists and both classifier loads succeed; and when either load
fails the coordinator's flag stays false (even if the email classifier
alone loaded) and the post-state still refuses every request.
-/
theorem c8_load_gate (M : ServiceModel) (dirExists : Bool)
    (emailLoad urlLoad : Except String Unit) (text : List Char) (ctype : String) :
    (∀ st : ServiceState, st.models_loaded = false →
      service_predict M st text ctype = .error "Models not loaded") ∧
    ((load_models dirExists emailLoad urlLoad initServiceState).2.models_loaded = true ↔
      dirExists = true ∧ emailLoad = .ok () ∧ urlLoad = .ok ()) ∧
    (((load_models dirExists emailLoad urlLoad initServiceState).1 = .ok ()) ↔
      dirExists = true ∧ emailLoad = .ok () ∧ urlLoad = .ok ()) ∧
    (∀ e : String, emailLoad = .error e ∨ urlLoad = .error e →
      (load_models dirExists emailLoad urlLoad initServiceState).2.models_loaded = false ∧
      service_predict M (load_models dirExists emailLoad urlLoad initServiceState).2 text
        ctype = .error "Models not loaded") := by
  have gate : ∀ st : ServiceState, st.models_loaded = false →
      service_predict M st text ctype = .error "Models not loaded" := by
    intro st hst
    simp [service_predict, predict_text, hst]
  have post : (load_models dirExists emailLoad urlLoad initServiceState).2.models_loaded =
      true ↔ dirExists = true ∧ emailLoad = .ok () ∧ urlLoad = .ok () := by
    cases dirExists <;> cases emailLoad <;> cases urlLoad <;>
      simp [load_models, initServiceState]
  refine ⟨gate, post, ?_, ?_⟩
  · cases dirExists <;> cases emailLoad <;> cases urlLoad <;>
      simp [load_models, initServiceState]
  · intro e he
    have hflag : (load_models dirExists emailLoad urlLoad initServiceState).2.models_loaded =
        false := by
      rcases he with he | he <;>
        (cases dirExists <;> simp [he, load_models, initServiceState] <;>
          cases emailLoad <;> cases urlLoad <;> simp_all [load_models, initServiceState])
    exact ⟨hflag, gate _ hflag⟩

/-- Witness for C8: email load succeeds, url load fails — the coordinator
    stays unloaded and refuses a request, though the email flag is set. -/
theorem c8_load_gate_witness :
    (load_models true (.ok ()) (.error "corrupt url model") initServiceState).2 =
      ⟨true, false, false⟩ ∧
    service_predict ⟨fun _ => .ok (1, 9/10), fun _ => .ok (1, 9/10), 30⟩
      (load_models true (.ok ()) (.error "corrupt url model") initServiceState).2
      "hello there".data "email" = .error "Models not loaded" := by
  constructor
  · rfl
  · exact (c8_load_gate ⟨fun _ => .ok (1, 9/10), fun _ => .ok (1, 9/10), 30⟩ true
      (.ok ()) (.error "corrupt url model") "hello there".data "email").2.2.2
      "corrupt url model" (Or.inr rfl) |>.2

/--
C10: an email request whose stripped text has fewer than two
whitespace-separated words is rejected with
`'Email content must contain at least 2 words'`, even when the stripped
text length lies within the `[3, 10000]` bounds.
-/
theorem c10_email_word_count (text : List Char)
    (hw : countWords (stripL text) < 2)
    (hmin : 3 ≤ (stripL text).length) (hmax : (stripL text).length ≤ 10000) :
    validate_prediction_input (some ⟨some text, some "email"⟩) =
      ⟨false, some "Email content must contain at least 2 words"⟩ := by
  have htext : ¬ (text = []) := by
    intro h
    rw [h] at hmin
    simp [stripL] at hmin
  have hstrip : ¬ (stripL text = []) := by
    intro h
    rw [h] at hmin
    simp at hmin
  have hlong : ¬ (10000 < (stripL text).length) := by omega
  have hshort : ¬ ((stripL text).length < 3) := by omega
  simp only [validate_prediction_input, validate_text_content, htext, hlong, hshort,
    hstrip, if_false, if_true, if_pos, if_neg, not_false_iff]
  simp [validate_email_content, hw]

/-- Witness for C10 at the three-character single word `abc`. -/
theorem c10_email_word_count_witness :
    countWords (stripL "abc".data) < 2 ∧
    3 ≤ (stripL "abc".data).length ∧ (stripL "abc".data).length ≤ 10000 ∧
    validate_prediction_input (some ⟨some "abc".data, some "email"⟩) =
      ⟨false, some "Email content must contain at least 2 words"⟩ :=
  ⟨by decide, by decide, by decide,
    c10_email_word_count "abc".data (by decide) (by decide) (by decide)⟩

/--
C5 counterexample: predictions are served with no mapping table anywhere in
the pipeline and nothing is ever rejected as unverified — the raw label is
interpreted by the hard-coded `prediction_num == 1 → "Phishing"` branch
(the code's own comment calls it a guess to be inverted if wrong): with raw
label 1 the email path answers `Phishing`, with raw label 0 it answers
`Safe`, unconditionally.
-/
theorem c5_counterexample :
    predict_text ⟨fun _ => .ok (1, 9/10), fun _ => .ok (1, 9/10), 30⟩ true
      "hello there".data "email" =
      .ok ⟨"Phishing", 9/10, "High", "email", 1, some "hello there".data⟩ ∧
    predict_text ⟨fun _ => .ok (0, 9/10), fun _ => .ok (0, 9/10), 30⟩ true
      "hello there".data "email" =
      .ok ⟨"Safe", 9/10, "Low", "email", 0, some "hello there".data⟩ := by
  constructor
  · show Except.ok _ = _
    norm_num [calculate_risk_level]
    decide
  · show Except.ok _ = _
    norm_num [calculate_risk_level]
    decide

/--
C5 (amended): for both content types the semantic label is hard-coded as
the fixed function `raw = 1 → Phishing, otherwise Safe` of the raw label
alone; no mapping table is consulted and no prediction is rejected over an
unverified mapping.
-/
theorem c5_hardcoded_mapping (M : ServiceModel) (text url : List Char)
    (n m : Int) (conf conf' : ℚ) (fs : List Int)
    (he : M.emailPredict (preprocess_email text) = .ok (n, conf))
    (hfs : extract_features M.expected_features url = some fs)
    (hu : M.urlPredict fs = .ok (m, conf')) :
    predict_email M text =
      .ok ⟨if n = 1 then "Phishing" else "Safe", conf,
        calculate_risk_level conf (n == 1), "email", n,
        some ((preprocess_email text).take 100)⟩ ∧
    predict_url M url =
      .ok ⟨if m = 1 then "Phishing" else "Safe", conf',
        calculate_risk_level conf' (m == 1), "url", m, none⟩ := by
  have key : ∀ k : Int, ((if k = 1 then "Phishing" else "Safe") == "Phishing") = (k == 1) := by
    intro k
    by_cases hk : k = 1
    · simp [hk]
    · simp [hk]
  constructor
  · simp only [predict_email, he, key]
  · simp only [predict_url, hfs, hu, key]

/-- Witness for C5 (amended) with concrete classifiers returning raw label
    1 (email) and raw label 0 (url). -/
theorem c5_hardcoded_mapping_witness :
    predict_email ⟨fun _ => .ok (1, 9/10), fun _ => .ok (0, 7/10), 30⟩
      "hello there".data =
      .ok ⟨"Phishing", 9/10, calculate_risk_level (9/10) true, "email", 1,
        some "hello there".data⟩ ∧
    predict_url ⟨fun _ => .ok (1, 9/10), fun _ => .ok (0, 7/10), 30⟩
      "http://x.com".data =
      .ok ⟨"Safe", 7/10, calculate_risk_level (7/10) false, "url", 0, none⟩ := by
  have h := c5_hardcoded_mapping
    ⟨fun _ => .ok (1, 9/10), fun _ => .ok (0, 7/10), 30⟩
    "hello there".data "http://x.com".data 1 0 (9/10) (7/10)
    ([-1, -1, -1, -1, -1, -1, -1] ++ List.replicate 23 0) rfl (by decide) rfl
  constructor
  · rw [h.1]
    norm_num
    decide
  · rw [h.2]
    norm_num
    rfl

/--
C3: an accepted batch (1..50 items) yields exactly one result per item, in
order: the result list is the per-index map of the per-item processor, its
length equals the batch length, the entry at position `i` is a function of
item `i` alone (so one item's validation or prediction failure cannot
disturb any other entry), and the entry at position `i` carries index `i`.
-/
theorem c3_batch_alignment (P : List Char → String → Except String PredOut)
    (items : List (Option ReqItem)) (h1 : 0 < items.length) (h2 : items.length ≤ 50) :
    api_batch_predict P (some items) =
      .ok (items.enum.map fun p => process_batch_item P p.1 p.2, items.length,
        ((items.enum.map fun p => process_batch_item P p.1 p.2).filter
          BatchEntry.success).length) ∧
    (items.enum.map fun p => process_batch_item P p.1 p.2).length = items.length ∧
    (∀ i, i < items.length →
      (items.enum.map fun p => process_batch_item P p.1 p.2)[i]? =
        (items[i]?).map (process_batch_item P i)) ∧
    (∀ i, i < items.length →
      ((items.enum.map fun p => process_batch_item P p.1 p.2)[i]?).map BatchEntry.index =
        some i) := by
  have hidx : ∀ (j : Nat) (item : Option ReqItem),
      (process_batch_item P j item).index = j := by
    intro j item
    dsimp only [process_batch_item]
    repeat' split
    all_goals rfl
  have hget : ∀ i, i < items.length →
      (items.enum.map fun p => process_batch_item P p.1 p.2)[i]? =
        (items[i]?).map (process_batch_item P i) := by
    intro i hi
    rw [List.getElem?_map, List.getElem?_enum]
    cases hx : items[i]? with
    | none => rfl
    | some x => rfl
  refine ⟨?_, ?_, hget, ?_⟩
  · have h0 : items.length ≠ 0 := by omega
    have h50 : ¬ 50 < items.length := by omega
    simp [api_batch_predict, h0, h50]
  · simp [List.enum_length]
  · intro i hi
    rw [hget i hi]
    cases hx : items[i]? with
    | none =>
      exfalso
      rw [List.getElem?_eq_none_iff] at hx
      omega
    | some x =>
      simp [hidx]

/-- Witness for C3: a two-item batch (one valid email item, one item with a
    bogus type) yields two entries in order — a success at index 0 and the
    validation failure at index 1, which did not stop item 0. -/
theorem c3_batch_alignment_witness :
    api_batch_predict
      (fun _ _ => .ok ⟨"Phishing", 9/10, "High", "email", 1, none⟩)
      (some ([some ⟨some "hello there".data, some "email"⟩,
        some ⟨some "x".data, some "bogus"⟩] : List (Option ReqItem))) =
      .ok ([.ok 0 "Phishing" (round4 (9/10)) "High" "email",
        .fail 1 "Type must be one of: email, url"], 2, 1) ∧
    ((([some ⟨some "hello there".data, some "email"⟩,
        some ⟨some "x".data, some "bogus"⟩] : List (Option ReqItem)).enum.map
      fun p => process_batch_item
        (fun _ _ => .ok ⟨"Phishing", 9/10, "High", "email", 1, none⟩) p.1 p.2)[1]?).map
      BatchEntry.index = some 1 := by
  have h := c3_batch_alignment
    (fun _ _ => .ok ⟨"Phishing", 9/10, "High", "email", 1, none⟩)
    ([some ⟨some "hello there".data, some "email"⟩,
      some ⟨some "x".data, some "bogus"⟩] : List (Option ReqItem))
    (by norm_num) (by norm_num)
  constructor
  · rw [h.1]
    rfl
  · exact h.2.2.2 1 (by norm_num)

/-! ## Development for claim C2: the normaliser stabilises after one pass -/

theorem drop_takeWhile_length (q : Char → Bool) (l : List Char) :
    l.drop (l.takeWhile q).length = l.dropWhile q := by
  induction l with
  | nil => rfl
  | cons c cs ih =>
    by_cases h : q c
    · simp [List.takeWhile_cons, List.dropWhile_cons, h, ih]
    · simp [List.takeWhile_cons, List.dropWhile_cons, h]

theorem head_dropWhile_not (q : Char → Bool) (l : List Char) (c : Char)
    (h : (l.dropWhile q).head? = some c) : q c = false := by
  induction l with
  | nil => simp [List.dropWhile] at h
  | cons a as ih =>
    by_cases ha : q a
    · rw [List.dropWhile_cons_of_pos ha] at h
      exact ih h
    · rw [List.dropWhile_cons_of_neg ha] at h
      simp at h
      rw [← h]
      simpa using ha

theorem dropWhile_isSuffix (q : Char → Bool) (l : List Char) : l.dropWhile q <:+ l := by
  induction l with
  | nil => exact List.suffix_rfl
  | cons a as ih =>
    by_cases ha : q a
    · rw [List.dropWhile_cons_of_pos ha]
      exact ih.trans (List.suffix_cons a as)
    · rw [List.dropWhile_cons_of_neg ha]

/-- If the matcher declines every nonempty suffix, `re.sub` is the identity. -/
theorem scanSub_id_of_none (m : Option Char → List Char → Option (Nat × List Char))
    (l : List Char) (p : Option Char)
    (h : ∀ (p' : Option Char) (l' : List Char), l' <:+ l → l' ≠ [] → m p' l' = none) :
    scanSub m p l = l := by
  induction l generalizing p with
  | nil => rfl
  | cons c cs ih =>
    rw [scanSub_cons_none m p c cs (h p (c :: cs) List.suffix_rfl (by simp))]
    rw [ih (some c) fun p' l' hsfx hne => h p' l' (hsfx.trans (List.suffix_cons c cs)) hne]

/-- Characters of a `re.sub` image whose replacements contain only spaces:
    each comes from the input or is a space. -/
theorem mem_scanSub (m : Option Char → List Char → Option (Nat × List Char))
    (hm : ∀ p l n rep, m p l = some (n, rep) → ∀ c ∈ rep, c = ' ') :
    ∀ (N : Nat) (l : List Char), l.length ≤ N → ∀ (p : Option Char) (c : Char),
      c ∈ scanSub m p l → c ∈ l ∨ c = ' ' := by
  intro N
  induction N with
  | zero =>
    intro l hl p c hc
    have hnil : l = [] := List.length_eq_zero.mp (by omega)
    subst hnil
    simp [scanSub_nil] at hc
  | succ N ih =>
    intro l hl p c hc
    cases l with
    | nil => simp [scanSub_nil] at hc
    | cons a as =>
      cases hma : m p (a :: as) with
      | none =>
        rw [scanSub_cons_none m p a as hma] at hc
        rcases List.mem_cons.mp hc with h | h
        · exact Or.inl (by simp [h])
        · rcases ih as (by simpa using hl) (some a) c h with h' | h'
          · exact Or.inl (List.mem_cons_of_mem a h')
          · exact Or.inr h'
      | some nr =>
        obtain ⟨n, rep⟩ := nr
        rw [scanSub_cons_some m p a as n rep hma] at hc
        rcases List.mem_append.mp hc with h | h
        · exact Or.inr (hm p (a :: as) n rep hma c h)
        · have hlen : (as.drop n).length ≤ N := by
            have := List.length_drop n as
            simp at hl
            omega
          rcases ih (as.drop n) hlen _ c h with h' | h'
          · exact Or.inl (List.mem_cons_of_mem a (List.mem_of_mem_drop h'))
          · exact Or.inr h'

theorem emailMatcher_eq_none (p : Option Char) (l : List Char) (h : '@' ∉ l) :
    emailMatcher p l = none := by
  unfold emailMatcher
  rw [if_neg]
  intro hat
  have h1 : '@' ∈ (nonspaceRun l).tail.dropLast := by simpa [emailRunHasAt] using hat
  have h2 : '@' ∈ nonspaceRun l :=
    ((List.dropLast_sublist _).trans (List.tail_sublist _)).mem h1
  exact h ((List.takeWhile_sublist _).mem h2)

theorem takeDigitsN3_eq_none (l : List Char) (h : ∀ c ∈ l, isDigitChar c = false) :
    takeDigitsN 3 l = none := by
  cases l with
  | nil => rfl
  | cons c cs => simp [takeDigitsN, h c (List.mem_cons_self c cs)]

theorem phoneMatcher_eq_none (p : Option Char) (l : List Char)
    (h : ∀ c ∈ l, isDigitChar c = false) : phoneMatcher p l = none := by
  unfold phoneMatcher
  rw [takeDigitsN3_eq_none l h]
  cases p with
  | none => rfl
  | some c => cases hw : wordChar c <;> simp [hw]

theorem htmlMatcher_eq_none (p : Option Char) (l : List Char) (h : '<' ∉ l) :
    htmlMatcher p l = none := by
  unfold htmlMatcher
  split
  · rename_i rest heq
    exfalso
    apply h
    first
      | exact List.mem_cons_self _ _
      | (rw [heq]; exact List.mem_cons_self _ _)
      | (rw [← heq]; exact List.mem_cons_self _ _)
  · rfl

theorem digitMatcher_eq_none (p : Option Char) (l : List Char)
    (h : ∀ c ∈ l, isDigitChar c = false) : digitMatcher p l = none := by
  cases l with
  | nil => rfl
  | cons c cs => simp [digitMatcher, h c (List.mem_cons_self c cs)]

theorem linkMatcher_eq_none (p : Option Char) (l : List Char) (h : linkStart l = false) :
    linkMatcher p l = none := by
  simp [linkMatcher, h]

theorem subEmailAddrs_id (l : List Char) (h : '@' ∉ l) : subEmailAddrs l = l :=
  scanSub_id_of_none _ l none fun p' l' hsfx _ =>
    emailMatcher_eq_none p' l' fun hm => h (hsfx.sublist.mem hm)

theorem subPhones_id (l : List Char) (h : ∀ c ∈ l, isDigitChar c = false) :
    subPhones l = l :=
  scanSub_id_of_none _ l none fun p' l' hsfx _ =>
    phoneMatcher_eq_none p' l' fun c hc => h c (hsfx.sublist.mem hc)

theorem subHtmlTags_id (l : List Char) (h : '<' ∉ l) : subHtmlTags l = l :=
  scanSub_id_of_none _ l none fun p' l' hsfx _ =>
    htmlMatcher_eq_none p' l' fun hm => h (hsfx.sublist.mem hm)

theorem subDigits_id (l : List Char) (h : ∀ c ∈ l, isDigitChar c = false) :
    subDigits l = l :=
  scanSub_id_of_none _ l none fun p' l' hsfx _ =>
    digitMatcher_eq_none p' l' fun c hc => h c (hsfx.sublist.mem hc)

theorem toNat_ofNat_valid (n : Nat) (h : n.isValidChar) : (Char.ofNat n).toNat = n := by
  simp only [Char.ofNat, dif_pos h, Char.ofNatAux, Char.toNat]
  simp [UInt32.toNat, BitVec.toNat_ofNat]

theorem lowerChar_idem (c : Char) : lowerChar (lowerChar c) = lowerChar c := by
  by_cases h : 65 ≤ c.toNat ∧ c.toNat ≤ 90
  · have h1 : lowerChar c = Char.ofNat (c.toNat + 32) := by
      unfold lowerChar
      rw [if_pos h]
    have hv : (c.toNat + 32).isValidChar := Or.inl (by omega)
    have h2 : (Char.ofNat (c.toNat + 32)).toNat = c.toNat + 32 := toNat_ofNat_valid _ hv
    rw [h1]
    unfold lowerChar
    rw [h2, if_neg (by omega)]
  · have h1 : lowerChar c = c := by
      unfold lowerChar
      rw [if_neg h]
    rw [h1, h1]

theorem lowerL_id (l : List Char) (h : ∀ c ∈ l, lowerChar c = c) : lowerL l = l :=
  (List.map_congr_left h).trans (List.map_id l)

theorem removePunct_id (l : List Char) (h : ∀ c ∈ l, punctuation.contains c = false) :
    removePunct l = l :=
  List.filter_eq_self.mpr fun c hc => by rw [h c hc]; rfl

theorem mem_stripL (l : List Char) (c : Char) (h : c ∈ stripL l) : c ∈ l := by
  unfold stripL at h
  rw [List.mem_reverse] at h
  have h1 := (List.dropWhile_sublist isSpaceChar).mem h
  rw [List.mem_reverse] at h1
  exact (List.dropWhile_sublist isSpaceChar).mem h1

theorem subDigits_no_digit :
    ∀ (N : Nat) (l : List Char), l.length ≤ N → ∀ (p : Option Char) (c : Char),
      c ∈ scanSub digitMatcher p l → isDigitChar c = false := by
  intro N
  induction N with
  | zero =>
    intro l hl p c hc
    have hnil : l = [] := List.length_eq_zero.mp (by omega)
    subst hnil
    simp [scanSub_nil] at hc
  | succ N ih =>
    intro l hl p c hc
    cases l with
    | nil => simp [scanSub_nil] at hc
    | cons a as =>
      by_cases ha : isDigitChar a = true
      · have hma : digitMatcher p (a :: as) =
            some (((a :: as).takeWhile isDigitChar).length - 1, []) := by
          simp [digitMatcher, ha]
        rw [scanSub_cons_some _ p a as _ [] hma, List.nil_append] at hc
        have hlen : (as.drop (((a :: as).takeWhile isDigitChar).length - 1)).length ≤ N := by
          have := List.length_drop (((a :: as).takeWhile isDigitChar).length - 1) as
          simp at hl
          omega
        exact ih _ hlen _ c hc
      · have hma : digitMatcher p (a :: as) = none := by
          simp [digitMatcher, ha]
        rw [scanSub_cons_none _ p a as hma] at hc
        rcases List.mem_cons.mp hc with h | h
        · rw [h]
          simpa using ha
        · exact ih as (by simpa using hl) (some a) c h

/-- The tail left over after a removal either is empty or begins with
    whitespace. -/
def spaceHead (r : List Char) : Prop :=
  ∀ c, r.head? = some c → isSpaceChar c = true

/-- No suffix of `l` begins a match of the hyperlink regex. -/
def NoLink (l : List Char) : Prop :=
  ∀ l', l' <:+ l → linkStart l' = false

theorem spaceHead_nil : spaceHead [] := fun c h => by simp at h

theorem startsWithL_mono (pat y z : List Char) (h : startsWithL pat y = true) :
    startsWithL pat (y ++ z) = true := by
  induction pat generalizing y with
  | nil => rfl
  | cons p ps ih =>
    cases y with
    | nil => simp [startsWithL] at h
    | cons a as =>
      rw [List.cons_append]
      simp [startsWithL] at h ⊢
      exact ⟨h.1, ih as h.2⟩

theorem startsWithL_append (pat y r : List Char) (h : startsWithL pat (y ++ r) = true) :
    (pat.length ≤ y.length ∧ startsWithL pat y = true) ∨
    (y.length < pat.length ∧ ∃ c, r.head? = some c ∧ c ∈ pat) := by
  induction pat generalizing y with
  | nil => exact Or.inl ⟨by simp, rfl⟩
  | cons p ps ih =>
    cases y with
    | nil =>
      right
      refine ⟨by simp, ?_⟩
      cases r with
      | nil => simp [startsWithL] at h
      | cons x xs =>
        simp only [List.nil_append] at h
        simp [startsWithL] at h
        exact ⟨x, rfl, by rw [← h.1]; exact List.mem_cons_self p ps⟩
    | cons a as =>
      rw [List.cons_append] at h
      simp [startsWithL] at h
      rcases ih as h.2 with ⟨hl, hs⟩ | ⟨hl, c, hc, hm⟩
      · left
        refine ⟨by simp; omega, ?_⟩
        simp [startsWithL, h.1, hs]
      · right
        exact ⟨by simp; omega, c, hc, List.mem_cons_of_mem p hm⟩

theorem nonspaceAt_append (y z : List Char) (i : Nat) (h : nonspaceAt y i = true) :
    nonspaceAt (y ++ z) i = true := by
  unfold nonspaceAt at h ⊢
  cases hy : y[i]? with
  | none => rw [hy] at h; simp at h
  | some c =>
    rw [hy] at h
    have hi : i < y.length := by
      by_contra hge
      rw [List.getElem?_eq_none (by omega)] at hy
      cases hy
    rw [List.getElem?_append, if_pos hi, hy]
    exact h

theorem linkStart_mono (y z : List Char) (h : linkStart y = true) :
    linkStart (y ++ z) = true := by
  simp only [linkStart, Bool.or_eq_true, Bool.and_eq_true] at h ⊢
  rcases h with ⟨h1, h2⟩ | ⟨h1, h2⟩
  · exact Or.inl ⟨startsWithL_mono _ _ _ h1, nonspaceAt_append _ _ _ h2⟩
  · exact Or.inr ⟨startsWithL_mono _ _ _ h1, nonspaceAt_append _ _ _ h2⟩

theorem nonspaceAt_of_append (y r : List Char) (i : Nat) (hr : spaceHead r)
    (hy : i ≤ y.length) (h : nonspaceAt (y ++ r) i = true) :
    nonspaceAt y i = true := by
  unfold nonspaceAt at h ⊢
  by_cases hi : i < y.length
  · rw [List.getElem?_append, if_pos hi] at h
    exact h
  · exfalso
    have hiy : i = y.length := by omega
    rw [List.getElem?_append, if_neg hi, hiy, Nat.sub_self] at h
    cases hr0 : r[0]? with
    | none => rw [hr0] at h; simp at h
    | some c0 =>
      rw [hr0] at h
      have hc0 : isSpaceChar c0 = true := hr c0 (by rw [List.head?_eq_getElem?, hr0])
      simp [hc0] at h

theorem linkStart_of_append_spaceHead (y r : List Char) (hr : spaceHead r)
    (h : linkStart (y ++ r) = true) : linkStart y = true := by
  simp only [linkStart, Bool.or_eq_true, Bool.and_eq_true] at h ⊢
  have hpat : ∀ c, c ∈ httpPat ∨ c ∈ wwwPat → isSpaceChar c = false := by
    intro c hc
    rcases hc with hc | hc <;> (simp [httpPat, wwwPat] at hc) <;>
      rcases hc with rfl | rfl | rfl | rfl <;> decide
  rcases h with ⟨h1, h2⟩ | ⟨h1, h2⟩
  · rcases startsWithL_append _ _ _ h1 with ⟨hl, hs⟩ | ⟨_, c, hc, hm⟩
    · left
      refine ⟨hs, ?_⟩
      have h4 : 4 ≤ y.length := by
        simp [httpPat] at hl
        omega
      by_cases h4' : 4 < y.length
      · exact nonspaceAt_of_append y r 4 hr (by omega) h2
      · exfalso
        unfold nonspaceAt at h2
        have hy4 : y.length = 4 := by omega
        rw [List.getElem?_append, if_neg (by omega), hy4, Nat.sub_self] at h2
        cases hr0 : r[0]? with
        | none => rw [hr0] at h2; simp at h2
        | some c0 =>
          rw [hr0] at h2
          have hc0 : isSpaceChar c0 = true := hr c0 (by rw [List.head?_eq_getElem?, hr0])
          simp [hc0] at h2
    · exfalso
      have hsp := hr c hc
      rw [hpat c (Or.inl hm)] at hsp
      cases hsp
  · rcases startsWithL_append _ _ _ h1 with ⟨hl, hs⟩ | ⟨_, c, hc, hm⟩
    · right
      refine ⟨hs, ?_⟩
      have h3 : 3 ≤ y.length := by
        simp [wwwPat] at hl
        omega
      by_cases h3' : 3 < y.length
      · exact nonspaceAt_of_append y r 3 hr (by omega) h2
      · exfalso
        unfold nonspaceAt at h2
        have hy3 : y.length = 3 := by omega
        rw [List.getElem?_append, if_neg (by omega), hy3, Nat.sub_self] at h2
        cases hr0 : r[0]? with
        | none => rw [hr0] at h2; simp at h2
        | some c0 =>
          rw [hr0] at h2
          have hc0 : isSpaceChar c0 = true := hr c0 (by rw [List.head?_eq_getElem?, hr0])
          simp [hc0] at h2
    · exfalso
      have hsp := hr c hc
      rw [hpat c (Or.inr hm)] at hsp
      cases hsp

/-- A match surviving past a whitespace-headed tail lies entirely before
    that tail, so the tail can be replaced by anything. -/
theorem link_extend (y r z : List Char) (hr : spaceHead r)
    (h : linkStart (y ++ r) = true) : linkStart (y ++ z) = true :=
  linkStart_mono y z (linkStart_of_append_spaceHead y r hr h)

theorem dropWhile_spaceHead (l : List Char) :
    spaceHead (l.dropWhile (fun c => !isSpaceChar c)) := by
  intro c hc
  have := head_dropWhile_not (fun c => !isSpaceChar c) l c hc
  simpa using this

theorem linkStart_head_nonspace (c : Char) (cs : List Char)
    (h : linkStart (c :: cs) = true) : isSpaceChar c = false := by
  simp only [linkStart, Bool.or_eq_true, Bool.and_eq_true] at h
  rcases h with ⟨h1, _⟩ | ⟨h1, _⟩
  · simp [startsWithL, httpPat] at h1
    rw [← h1.1]
    decide
  · simp [startsWithL, wwwPat] at h1
    rw [← h1.1]
    decide

theorem subLinks_cons_match (p : Option Char) (c : Char) (cs : List Char)
    (h : linkStart (c :: cs) = true) :
    ∃ p', scanSub linkMatcher p (c :: cs) =
      scanSub linkMatcher p' ((c :: cs).dropWhile (fun x => !isSpaceChar x)) := by
  have hm : linkMatcher p (c :: cs) = some ((nonspaceRun (c :: cs)).length - 1, []) := by
    simp [linkMatcher, h]
  have hcn : (fun x => !isSpaceChar x) c = true := by
    simp [linkStart_head_nonspace c cs h]
  have hrun : nonspaceRun (c :: cs) = c :: cs.takeWhile (fun x => !isSpaceChar x) := by
    simp [nonspaceRun, List.takeWhile_cons, hcn]
  refine ⟨((c :: cs).take ((nonspaceRun (c :: cs)).length - 1 + 1)).getLast?, ?_⟩
  rw [scanSub_cons_some _ p c cs _ [] hm, List.nil_append]
  congr 1
  rw [hrun]
  simp only [List.length_cons, Nat.add_sub_cancel]
  rw [drop_takeWhile_length, @List.dropWhile_cons_of_pos _ (fun x => !isSpaceChar x) c cs hcn]

theorem spaceHead_cons (b : Char) (bs : List Char) (hb : isSpaceChar b = true) :
    spaceHead (b :: bs) := by
  intro x hx
  simp at hx
  rw [← hx]
  exact hb

theorem subLinks_struct :
    ∀ (N : Nat) (l : List Char), l.length ≤ N → ∀ p,
      scanSub linkMatcher p l = l ∨
      ∃ k r, scanSub linkMatcher p l = l.take k ++ r ∧ spaceHead r := by
  intro N
  induction N with
  | zero =>
    intro l hl p
    have hnil : l = [] := List.length_eq_zero.mp (by omega)
    subst hnil
    exact Or.inl rfl
  | succ N ih =>
    intro l hl p
    cases l with
    | nil => exact Or.inl rfl
    | cons c cs =>
      cases hls : linkStart (c :: cs) with
      | false =>
        rw [scanSub_cons_none _ p c cs (linkMatcher_eq_none p _ hls)]
        rcases ih cs (by simpa using hl) (some c) with heq | ⟨k, r, heq, hr⟩
        · exact Or.inl (by rw [heq])
        · right
          refine ⟨k + 1, r, ?_, hr⟩
          rw [heq, List.take_succ_cons, List.cons_append]
      | true =>
        obtain ⟨p', heq⟩ := subLinks_cons_match p c cs hls
        rw [heq]
        right
        refine ⟨0, _, by rw [List.take_zero, List.nil_append], ?_⟩
        cases hB : (c :: cs).dropWhile (fun x => !isSpaceChar x) with
        | nil => exact spaceHead_nil
        | cons b bs =>
          have hb : isSpaceChar b = true := by
            have := dropWhile_spaceHead (c :: cs)
            rw [hB] at this
            exact this b rfl
          rw [scanSub_cons_none _ p' b bs (linkMatcher_eq_none p' _ (by
            cases hq : linkStart (b :: bs)
            · rfl
            · rw [linkStart_head_nonspace b bs hq] at hb
              cases hb))]
          exact spaceHead_cons b _ hb

theorem noLink_nil : NoLink [] := by
  intro l' hs
  rw [List.suffix_nil.mp hs]
  rfl

theorem noLink_of_suffix (l l' : List Char) (h : NoLink l) (hs : l' <:+ l) : NoLink l' :=
  fun w hw => h w (hw.trans hs)

theorem noLink_cons (c : Char) (w : List Char) (hc : linkStart (c :: w) = false)
    (hw : NoLink w) : NoLink (c :: w) := by
  intro l' hs
  rcases List.suffix_cons_iff.mp hs with rfl | hs'
  · exact hc
  · exact hw l' hs'

theorem subLinks_noLink :
    ∀ (N : Nat) (l : List Char), l.length ≤ N → ∀ p, NoLink (scanSub linkMatcher p l) := by
  intro N
  induction N with
  | zero =>
    intro l hl p
    have hnil : l = [] := List.length_eq_zero.mp (by omega)
    subst hnil
    exact noLink_nil
  | succ N ih =>
    intro l hl p
    cases l with
    | nil => exact noLink_nil
    | cons c cs =>
      cases hls : linkStart (c :: cs) with
      | false =>
        rw [scanSub_cons_none _ p c cs (linkMatcher_eq_none p _ hls)]
        apply noLink_cons _ _ _ (ih cs (by simpa using hl) (some c))
        rcases subLinks_struct cs.length cs le_rfl (some c) with heq | ⟨k, r, heq, hr⟩
        · rw [heq]
          exact hls
        · rw [heq]
          cases hstart : linkStart (c :: (cs.take k ++ r)) with
          | false => rfl
          | true =>
            exfalso
            have h2 : linkStart ((c :: cs.take k) ++ cs.drop k) = true :=
              link_extend (c :: cs.take k) r (cs.drop k) hr
                (by rw [List.cons_append]; exact hstart)
            rw [List.cons_append, List.take_append_drop] at h2
            simp [hls] at h2
      | true =>
        obtain ⟨p', heq⟩ := subLinks_cons_match p c cs hls
        rw [heq]
        have hcn : (fun x => !isSpaceChar x) c = true := by
          simp [linkStart_head_nonspace c cs hls]
        rw [@List.dropWhile_cons_of_pos _ (fun x => !isSpaceChar x) c cs hcn]
        apply ih
        have := (List.dropWhile_sublist (l := cs) (fun x => !isSpaceChar x)).length_le
        simp at hl
        omega

theorem spaceHead_noLink_start (b : Char) (bs : List Char) (hb : isSpaceChar b = true) :
    linkStart (b :: bs) = false := by
  cases h : linkStart (b :: bs) with
  | false => rfl
  | true =>
    rw [linkStart_head_nonspace b bs h] at hb
    cases hb

theorem collapseWs_cons_space (p : Option Char) (c : Char) (cs : List Char)
    (hc : isSpaceChar c = true) :
    ∃ p', scanSub wsMatcher p (c :: cs) =
      ' ' :: scanSub wsMatcher p' ((c :: cs).dropWhile isSpaceChar) := by
  have hm : wsMatcher p (c :: cs) =
      some (((c :: cs).takeWhile isSpaceChar).length - 1, [' ']) := by
    simp [wsMatcher, hc]
  have hrun : (c :: cs).takeWhile isSpaceChar = c :: cs.takeWhile isSpaceChar := by
    simp [List.takeWhile_cons, hc]
  refine ⟨((c :: cs).take (((c :: cs).takeWhile isSpaceChar).length - 1 + 1)).getLast?, ?_⟩
  rw [scanSub_cons_some _ p c cs _ [' '] hm]
  rw [List.singleton_append]
  congr 1
  rw [hrun]
  simp only [List.length_cons, Nat.add_sub_cancel]
  rw [drop_takeWhile_length, @List.dropWhile_cons_of_pos _ isSpaceChar c cs hc]

theorem collapseWs_cons_nonspace (p : Option Char) (c : Char) (cs : List Char)
    (hc : isSpaceChar c = false) :
    scanSub wsMatcher p (c :: cs) = c :: scanSub wsMatcher (some c) cs :=
  scanSub_cons_none _ p c cs (by simp [wsMatcher, hc])

theorem collapseWs_struct :
    ∀ (N : Nat) (l : List Char), l.length ≤ N → ∀ p, ∃ r,
      scanSub wsMatcher p l = l.takeWhile (fun c => !isSpaceChar c) ++ r ∧ spaceHead r := by
  intro N
  induction N with
  | zero =>
    intro l hl p
    have hnil : l = [] := List.length_eq_zero.mp (by omega)
    subst hnil
    exact ⟨[], rfl, spaceHead_nil⟩
  | succ N ih =>
    intro l hl p
    cases l with
    | nil => exact ⟨[], rfl, spaceHead_nil⟩
    | cons c cs =>
      cases hc : isSpaceChar c with
      | true =>
        obtain ⟨p', heq⟩ := collapseWs_cons_space p c cs hc
        refine ⟨' ' :: scanSub wsMatcher p' ((c :: cs).dropWhile isSpaceChar), ?_, ?_⟩
        · rw [heq]
          have : List.takeWhile (fun c => !isSpaceChar c) (c :: cs) = [] := by
            simp [List.takeWhile_cons, hc]
          rw [this, List.nil_append]
        · exact spaceHead_cons _ _ (by decide)
      | false =>
        rw [collapseWs_cons_nonspace p c cs hc]
        obtain ⟨r, heq, hr⟩ := ih cs (by simpa using hl) (some c)
        refine ⟨r, ?_, hr⟩
        rw [heq]
        have : List.takeWhile (fun c => !isSpaceChar c) (c :: cs) =
            c :: List.takeWhile (fun c => !isSpaceChar c) cs := by
          simp [List.takeWhile_cons, hc]
        rw [this, List.cons_append]

theorem collapseWs_noLink :
    ∀ (N : Nat) (l : List Char), l.length ≤ N → ∀ p,
      NoLink l → NoLink (scanSub wsMatcher p l) := by
  intro N
  induction N with
  | zero =>
    intro l hl p _
    have hnil : l = [] := List.length_eq_zero.mp (by omega)
    subst hnil
    exact noLink_nil
  | succ N ih =>
    intro l hl p hnl
    cases l with
    | nil => exact noLink_nil
    | cons c cs =>
      cases hc : isSpaceChar c with
      | true =>
        obtain ⟨p', heq⟩ := collapseWs_cons_space p c cs hc
        rw [heq]
        have hz : (c :: cs).dropWhile isSpaceChar <:+ c :: cs :=
          dropWhile_isSuffix isSpaceChar (c :: cs)
        have hzlen : ((c :: cs).dropWhile isSpaceChar).length ≤ N := by
          rw [@List.dropWhile_cons_of_pos _ isSpaceChar c cs hc]
          have := (List.dropWhile_sublist (l := cs) isSpaceChar).length_le
          simp at hl
          omega
        apply noLink_cons
        · exact spaceHead_noLink_start ' ' _ (by decide)
        · exact ih _ hzlen p' (noLink_of_suffix _ _ hnl hz)
      | false =>
        rw [collapseWs_cons_nonspace p c cs hc]
        apply noLink_cons
        · obtain ⟨r, heq, hr⟩ := collapseWs_struct cs.length cs le_rfl (some c)
          rw [heq]
          cases hstart : linkStart (c :: (cs.takeWhile (fun x => !isSpaceChar x) ++ r)) with
          | false => rfl
          | true =>
            exfalso
            have h2 : linkStart ((c :: cs.takeWhile (fun x => !isSpaceChar x)) ++
                cs.dropWhile (fun x => !isSpaceChar x)) = true :=
              link_extend _ r _ hr (by rw [List.cons_append]; exact hstart)
            rw [List.cons_append, List.takeWhile_append_dropWhile] at h2
            have := hnl (c :: cs) List.suffix_rfl
            simp [this] at h2
        · exact ih cs (by simpa using hl) (some c)
            (noLink_of_suffix _ _ hnl (List.suffix_cons c cs))

theorem stripL_decomp (l : List Char) :
    ∃ s, l.dropWhile isSpaceChar = stripL l ++ s ∧ ∀ c ∈ s, isSpaceChar c = true := by
  refine ⟨((l.dropWhile isSpaceChar).reverse.takeWhile isSpaceChar).reverse, ?_, ?_⟩
  · conv_lhs =>
      rw [← (l.dropWhile isSpaceChar).reverse_reverse,
        ← List.takeWhile_append_dropWhile isSpaceChar (l.dropWhile isSpaceChar).reverse]
    rw [List.reverse_append]
    rfl
  · intro c hc
    rw [List.mem_reverse] at hc
    exact List.mem_takeWhile_imp hc

theorem noLink_append_spaces (w s : List Char) (h : NoLink (w ++ s))
    (hs : ∀ c ∈ s, isSpaceChar c = true) : NoLink w := by
  intro l' hsfx
  cases hstart : linkStart l' with
  | false => rfl
  | true =>
    exfalso
    have h1 : linkStart (l' ++ s) = true :=
      link_extend l' [] s spaceHead_nil (by rw [List.append_nil]; exact hstart)
    have hsfx2 : l' ++ s <:+ w ++ s := by
      obtain ⟨u, hu⟩ := hsfx
      exact ⟨u, by rw [← List.append_assoc, hu]⟩
    have := h (l' ++ s) hsfx2
    simp [this] at h1

theorem stripL_noLink (l : List Char) (h : NoLink l) : NoLink (stripL l) := by
  have h1 : NoLink (l.dropWhile isSpaceChar) :=
    noLink_of_suffix _ _ h (dropWhile_isSuffix _ _)
  obtain ⟨s, hdec, hs⟩ := stripL_decomp l
  rw [hdec] at h1
  exact noLink_append_spaces _ _ h1 hs

/-- The shape `re.sub(r'\s+', ' ')` guarantees: every whitespace character
    is a single space and no two are adjacent. -/
def CollapsedB : List Char → Bool
  | [] => true
  | a :: rest =>
    (if isSpaceChar a then a == ' ' &&
        (match rest with
         | b :: _ => !isSpaceChar b
         | [] => true)
      else true) && CollapsedB rest

theorem andE {a b : Bool} (h : (a && b) = true) : a = true ∧ b = true := by
  cases a <;> cases b <;> simp_all

theorem collapsedB_tail (a : Char) (rest : List Char)
    (h : CollapsedB (a :: rest) = true) : CollapsedB rest = true :=
  (andE h).2

theorem collapseWs_collapsed :
    ∀ (N : Nat) (l : List Char), l.length ≤ N → ∀ p,
      CollapsedB (scanSub wsMatcher p l) = true := by
  intro N
  induction N with
  | zero =>
    intro l hl p
    have hnil : l = [] := List.length_eq_zero.mp (by omega)
    subst hnil
    rfl
  | succ N ih =>
    intro l hl p
    cases l with
    | nil => rfl
    | cons c cs =>
      cases hc : isSpaceChar c with
      | true =>
        obtain ⟨p', heq⟩ := collapseWs_cons_space p c cs hc
        rw [heq]
        have hzlen : ((c :: cs).dropWhile isSpaceChar).length ≤ N := by
          rw [@List.dropWhile_cons_of_pos _ isSpaceChar c cs hc]
          have := (List.dropWhile_sublist (l := cs) isSpaceChar).length_le
          simp at hl
          omega
        have hw := ih _ hzlen p'
        cases hz : (c :: cs).dropWhile isSpaceChar with
        | nil =>
          rw [scanSub_nil]
          decide
        | cons d ds =>
          have hd : isSpaceChar d = false :=
            head_dropWhile_not isSpaceChar (c :: cs) d (by rw [hz]; rfl)
          rw [hz] at hw
          rw [collapseWs_cons_nonspace p' d ds hd] at hw ⊢
          simp only [CollapsedB] at hw ⊢
          rw [hw, hd]
          decide
      | false =>
        rw [collapseWs_cons_nonspace p c cs hc]
        simp only [CollapsedB]
        rw [ih cs (by simpa using hl) (some c), hc]
        simp

theorem collapsed_id :
    ∀ (N : Nat) (l : List Char), l.length ≤ N → CollapsedB l = true → ∀ p,
      scanSub wsMatcher p l = l := by
  intro N
  induction N with
  | zero =>
    intro l hl _ p
    have hnil : l = [] := List.length_eq_zero.mp (by omega)
    subst hnil
    rfl
  | succ N ih =>
    intro l hl h p
    cases l with
    | nil => rfl
    | cons c cs =>
      cases hc : isSpaceChar c with
      | false =>
        rw [collapseWs_cons_nonspace p c cs hc,
          ih cs (by simpa using hl) (collapsedB_tail c cs h)]
      | true =>
        have h1 := (andE h).1
        simp only [hc, if_true] at h1
        have h1' := andE h1
        have hcsp : c = ' ' := by simpa using h1'.1
        have hhead := h1'.2
        have hrun : (c :: cs).takeWhile isSpaceChar = [c] := by
          cases cs with
          | nil => simp [List.takeWhile_cons, hc]
          | cons b bs =>
            have hb : isSpaceChar b = false := by simpa using hhead
            simp [List.takeWhile_cons, hc, hb]
        have hm : wsMatcher p (c :: cs) = some (0, [' ']) := by
          simp only [wsMatcher, hc, if_true, hrun]
          rfl
        rw [scanSub_cons_some _ p c cs 0 [' '] hm]
        rw [List.drop_zero, List.singleton_append]
        rw [ih cs (by simpa using hl) (collapsedB_tail c cs h)]
        rw [hcsp]

theorem collapsedB_append_spaces (w s : List Char) (h : CollapsedB (w ++ s) = true)
    (hs : ∀ c ∈ s, isSpaceChar c = true) : CollapsedB w = true := by
  induction w with
  | nil => rfl
  | cons a w' ih =>
    rw [List.cons_append] at h
    have h2 := ih (collapsedB_tail _ _ h)
    have h1 := (andE h).1
    cases w' with
    | cons b w'' =>
      rw [List.cons_append] at h1
      simp only [CollapsedB] at h2 ⊢
      rw [h2, Bool.and_true]
      exact h1
    | nil =>
      by_cases ha : isSpaceChar a = true
      · cases s with
        | nil => simpa [CollapsedB] using h
        | cons e es =>
          exfalso
          have he : isSpaceChar e = true := hs e (List.mem_cons_self e es)
          simp [CollapsedB, ha, he] at h
      · simp [CollapsedB, ha]

theorem collapsedB_dropWhile (l : List Char) (h : CollapsedB l = true) :
    CollapsedB (l.dropWhile isSpaceChar) = true := by
  induction l with
  | nil => exact h
  | cons a as ih =>
    by_cases ha : isSpaceChar a = true
    · rw [List.dropWhile_cons_of_pos ha]
      exact ih (collapsedB_tail _ _ h)
    · rw [List.dropWhile_cons_of_neg (by simpa using ha)]
      exact h

theorem stripL_collapsed (l : List Char) (h : CollapsedB l = true) :
    CollapsedB (stripL l) = true := by
  have h1 := collapsedB_dropWhile l h
  obtain ⟨s, hdec, hs⟩ := stripL_decomp l
  rw [hdec] at h1
  exact collapsedB_append_spaces _ _ h1 hs

theorem dropWhile_eq_self_of_head (q : Char → Bool) (l : List Char)
    (h : ∀ c, l.head? = some c → q c = false) : l.dropWhile q = l := by
  cases l with
  | nil => rfl
  | cons a as =>
    rw [List.dropWhile_cons_of_neg]
    simp [h a rfl]

theorem getLast?_of_suffix (x y : List Char) (c : Char) (hs : x <:+ y)
    (h : x.getLast? = some c) : y.getLast? = some c := by
  obtain ⟨u, hu⟩ := hs
  rw [← hu, List.getLast?_append, h]
  rfl

theorem stripL_head_nonspace (l : List Char) (c : Char)
    (h : (stripL l).head? = some c) : isSpaceChar c = false := by
  rw [stripL, List.head?_reverse] at h
  have hsfx : (l.dropWhile isSpaceChar).reverse.dropWhile isSpaceChar <:+
      (l.dropWhile isSpaceChar).reverse := dropWhile_isSuffix _ _
  have := getLast?_of_suffix _ _ c hsfx h
  rw [List.getLast?_reverse] at this
  exact head_dropWhile_not isSpaceChar l c this

theorem stripL_last_nonspace (l : List Char) (c : Char)
    (h : (stripL l).getLast? = some c) : isSpaceChar c = false := by
  rw [stripL, List.getLast?_reverse] at h
  exact head_dropWhile_not isSpaceChar (l.dropWhile isSpaceChar).reverse c h

theorem stripL_idem (l : List Char) : stripL (stripL l) = stripL l := by
  have h1 : (stripL l).dropWhile isSpaceChar = stripL l :=
    dropWhile_eq_self_of_head _ _ fun c hc => stripL_head_nonspace l c hc
  have h2 : (stripL l).reverse.dropWhile isSpaceChar = (stripL l).reverse :=
    dropWhile_eq_self_of_head _ _ fun c hc => by
      rw [List.head?_reverse] at hc
      exact stripL_last_nonspace l c hc
  show (((stripL l).dropWhile isSpaceChar).reverse.dropWhile isSpaceChar).reverse = stripL l
  rw [h1, h2, List.reverse_reverse]

theorem subLinks_id (l : List Char) (h : NoLink l) : subLinks l = l :=
  scanSub_id_of_none _ l none fun p' l' hsfx _ =>
    linkMatcher_eq_none p' l' (h l' hsfx)

theorem linkMatcher_rep : ∀ (p : Option Char) (l : List Char) (n : Nat) (rep : List Char),
    linkMatcher p l = some (n, rep) → ∀ c ∈ rep, c = ' ' := by
  intro p l n rep h c hc
  unfold linkMatcher at h
  by_cases hls : linkStart l = true
  · rw [if_pos hls] at h
    injection h with h
    injection h with _ h
    rw [← h] at hc
    cases hc
  · rw [if_neg hls] at h
    cases h

theorem wsMatcher_rep : ∀ (p : Option Char) (l : List Char) (n : Nat) (rep : List Char),
    wsMatcher p l = some (n, rep) → ∀ c ∈ rep, c = ' ' := by
  intro p l n rep h c hc
  cases l with
  | nil => cases h
  | cons a as =>
    by_cases ha : isSpaceChar a = true
    · have hm : wsMatcher p (a :: as) =
          some (((a :: as).takeWhile isSpaceChar).length - 1, [' ']) := by
        simp [wsMatcher, ha]
      rw [hm] at h
      injection h with h
      injection h with _ h
      rw [← h] at hc
      simpa using hc
    · have hm : wsMatcher p (a :: as) = none := by simp [wsMatcher, ha]
      rw [hm] at h
      cases h

theorem digitMatcher_rep : ∀ (p : Option Char) (l : List Char) (n : Nat) (rep : List Char),
    digitMatcher p l = some (n, rep) → ∀ c ∈ rep, c = ' ' := by
  intro p l n rep h c hc
  cases l with
  | nil => cases h
  | cons a as =>
    by_cases ha : isDigitChar a = true
    · have hm : digitMatcher p (a :: as) =
          some (((a :: as).takeWhile isDigitChar).length - 1, []) := by
        simp [digitMatcher, ha]
      rw [hm] at h
      injection h with h
      injection h with _ h
      rw [← h] at hc
      cases hc
    · have hm : digitMatcher p (a :: as) = none := by simp [digitMatcher, ha]
      rw [hm] at h
      cases h

/-- Every character of one `preprocess_email` pass is lowercase-fixed, not
    punctuation, and not a digit. -/
theorem preprocess_invariants (x : List Char) :
    (∀ c ∈ preprocess_email x, lowerChar c = c) ∧
    (∀ c ∈ preprocess_email x, punctuation.contains c = false) ∧
    (∀ c ∈ preprocess_email x, isDigitChar c = false) := by
  by_cases hx : x = []
  · subst hx
    refine ⟨?_, ?_, ?_⟩ <;> intro c hc <;> simp [preprocess_email] at hc
  · unfold preprocess_email
    rw [if_neg hx]
    refine ⟨?_, ?_, ?_⟩ <;> intro c hc
    · have hc1 := mem_stripL _ c hc
      rcases mem_scanSub digitMatcher digitMatcher_rep _ _ le_rfl none c hc1 with h2 | h2
      · obtain ⟨hmem, _⟩ := List.mem_filter.mp h2
        obtain ⟨d, _, rfl⟩ := List.mem_map.mp hmem
        exact lowerChar_idem d
      · rw [h2]
        decide
    · have hc1 := mem_stripL _ c hc
      rcases mem_scanSub digitMatcher digitMatcher_rep _ _ le_rfl none c hc1 with h2 | h2
      · obtain ⟨_, hp⟩ := List.mem_filter.mp h2
        simpa using hp
      · rw [h2]
        decide
    · exact subDigits_no_digit _ _ le_rfl none c (mem_stripL _ c hc)

/-- On a text satisfying the pass invariants, a `preprocess_email` pass
    reduces to link removal, whitespace collapsing and stripping: the other
    six stages are the identity. -/
theorem preprocess_snd_pass (t : List Char)
    (h1 : ∀ c ∈ t, lowerChar c = c) (h2 : ∀ c ∈ t, punctuation.contains c = false)
    (h3 : ∀ c ∈ t, isDigitChar c = false) :
    preprocess_email t = stripL (collapseWs (subLinks t)) := by
  by_cases ht : t = []
  · subst ht
    rfl
  · unfold preprocess_email
    rw [if_neg ht]
    have hmemL : ∀ c ∈ subLinks t, c ∈ t ∨ c = ' ' := fun c hmem =>
      mem_scanSub linkMatcher linkMatcher_rep _ t le_rfl none c hmem
    have hat : '@' ∉ subLinks t := fun hmem => by
      rcases hmemL '@' hmem with h | h
      · exact absurd (h2 '@' h) (by decide)
      · exact absurd h (by decide)
    rw [subEmailAddrs_id _ hat]
    have hdig : ∀ c ∈ subLinks t, isDigitChar c = false := fun c hmem => by
      rcases hmemL c hmem with h | h
      · exact h3 c h
      · rw [h]
        decide
    rw [subPhones_id _ hdig]
    have hlt : '<' ∉ subLinks t := fun hmem => by
      rcases hmemL '<' hmem with h | h
      · exact absurd (h2 '<' h) (by decide)
      · exact absurd h (by decide)
    rw [subHtmlTags_id _ hlt]
    have hmemW : ∀ c ∈ collapseWs (subLinks t), c ∈ t ∨ c = ' ' := fun c hmem => by
      rcases mem_scanSub wsMatcher wsMatcher_rep _ _ le_rfl none c hmem with h | h
      · exact hmemL c h
      · exact Or.inr h
    have hw1 : ∀ c ∈ collapseWs (subLinks t), lowerChar c = c := fun c hmem => by
      rcases hmemW c hmem with h | h
      · exact h1 c h
      · rw [h]
        decide
    rw [lowerL_id _ hw1]
    have hw2 : ∀ c ∈ collapseWs (subLinks t), punctuation.contains c = false :=
      fun c hmem => by
        rcases hmemW c hmem with h | h
        · exact h2 c h
        · rw [h]
          decide
    rw [removePunct_id _ hw2]
    have hw3 : ∀ c ∈ collapseWs (subLinks t), isDigitChar c = false := fun c hmem => by
      rcases hmemW c hmem with h | h
      · exact h3 c h
      · rw [h]
        decide
    rw [subDigits_id _ hw3]

/-- A second pass over an already-normalised text is the identity. -/
theorem preprocess_fixed_from (t : List Char)
    (h1 : ∀ c ∈ t, lowerChar c = c) (h2 : ∀ c ∈ t, punctuation.contains c = false)
    (h3 : ∀ c ∈ t, isDigitChar c = false) :
    preprocess_email (preprocess_email t) = preprocess_email t := by
  rw [preprocess_snd_pass t h1 h2 h3]
  have hu_mem : ∀ c ∈ stripL (collapseWs (subLinks t)), c ∈ t ∨ c = ' ' := fun c hc => by
    have hc1 := mem_stripL _ c hc
    rcases mem_scanSub wsMatcher wsMatcher_rep _ _ le_rfl none c hc1 with h | h
    · exact mem_scanSub linkMatcher linkMatcher_rep _ t le_rfl none c h
    · exact Or.inr h
  by_cases hu0 : stripL (collapseWs (subLinks t)) = []
  · rw [hu0]
    rfl
  · unfold preprocess_email
    rw [if_neg hu0]
    have hnl : NoLink (stripL (collapseWs (subLinks t))) :=
      stripL_noLink _ (collapseWs_noLink _ _ le_rfl none (subLinks_noLink _ t le_rfl none))
    rw [show subLinks (stripL (collapseWs (subLinks t))) = stripL (collapseWs (subLinks t))
      from subLinks_id _ hnl]
    have hat : '@' ∉ stripL (collapseWs (subLinks t)) := fun hmem => by
      rcases hu_mem '@' hmem with h | h
      · exact absurd (h2 '@' h) (by decide)
      · exact absurd h (by decide)
    rw [subEmailAddrs_id _ hat]
    have hdig : ∀ c ∈ stripL (collapseWs (subLinks t)), isDigitChar c = false :=
      fun c hc => by
        rcases hu_mem c hc with h | h
        · exact h3 c h
        · rw [h]
          decide
    rw [subPhones_id _ hdig]
    have hlt : '<' ∉ stripL (collapseWs (subLinks t)) := fun hmem => by
      rcases hu_mem '<' hmem with h | h
      · exact absurd (h2 '<' h) (by decide)
      · exact absurd h (by decide)
    rw [subHtmlTags_id _ hlt]
    have hcoll : CollapsedB (stripL (collapseWs (subLinks t))) = true :=
      stripL_collapsed _ (collapseWs_collapsed _ _ le_rfl none)
    rw [show collapseWs (stripL (collapseWs (subLinks t))) = stripL (collapseWs (subLinks t))
      from collapsed_id _ _ le_rfl hcoll none]
    have hlow : ∀ c ∈ stripL (collapseWs (subLinks t)), lowerChar c = c := fun c hc => by
      rcases hu_mem c hc with h | h
      · exact h1 c h
      · rw [h]
        decide
    rw [lowerL_id _ hlow]
    have hpunct : ∀ c ∈ stripL (collapseWs (subLinks t)), punctuation.contains c = false :=
      fun c hc => by
        rcases hu_mem c hc with h | h
        · exact h2 c h
        · rw [h]
          decide
    rw [removePunct_id _ hpunct]
    rw [subDigits_id _ hdig]
    exact stripL_idem _

/--
C2 counterexample: the normaliser is not idempotent — `WwwX` survives the
case-sensitive hyperlink regex, is lowercased to `wwwx`, and a second pass
then deletes it as a `www\S+` match, so
`normalize(normalize("WwwX")) ≠ normalize("WwwX")`.
-/
theorem c2_counterexample :
    preprocess_email "WwwX".data = "wwwx".data ∧
    preprocess_email (preprocess_email "WwwX".data) = [] ∧
    preprocess_email (preprocess_email "WwwX".data) ≠ preprocess_email "WwwX".data := by
  refine ⟨by decide, by decide, by decide⟩

/--
C2 (amended): the normaliser stabilises after one application — for every
input `x`, `normalize (normalize (normalize x)) = normalize (normalize x)`;
equivalently `normalize ∘ normalize` is idempotent.  (Full idempotence of a
single pass fails because lowercasing runs after the case-sensitive
hyperlink regexes.)
-/
theorem c2_normalize_stable (x : List Char) :
    preprocess_email (preprocess_email (preprocess_email x)) =
      preprocess_email (preprocess_email x) := by
  obtain ⟨h1, h2, h3⟩ := preprocess_invariants x
  exact preprocess_fixed_from (preprocess_email x) h1 h2 h3
